import Mathlib

/-!
Shallow embedding of the recursive-CTE producer/consumer of `executor/cte.go`
(TiDB). Rows are tuples of values modelled as `List Nat`; a chunk is the
logical (selection-applied) row sequence of a `chunk.Chunk`; a `Storage` is
the `cteutil.Storage` row container with its done/error flags. Ghost counters
(`doneCnt`, `reopens`, `openCalls`, `hashAllocs`) count calls of `SetDone`,
`Reopen`, `openProducer` and hash-index allocations; they are written only
at those call sites and read by no operation, so they do not influence any
computed value.
-/

/-- Errors surfaced by the producer. `depthExceeded n` is
`ErrCTEMaxRecursionDepth.GenWithStackByArgs(n)`; `seedNil` is the
"seedExec for CTEExec is nil" error; `subPlan n` stands for an arbitrary
error returned by a seed/recursive sub-plan `Open`/`Next` call. -/
inductive Err where
  | depthExceeded : Nat → Err
  | seedNil : Err
  | subPlan : Nat → Err
deriving DecidableEq, Repr

/-- A row: the tuple of column values (value encoding abstracted to `Nat`). -/
abbrev Row := List Nat

/-- A chunk: the logical row sequence of a `chunk.Chunk` (its selection
applied). -/
abbrev Chunk := List Row

/-- One `Next` result of a sub-plan: an error or a batch (an empty batch
signals exhaustion). -/
abbrev Pull := Except Err Chunk

/-- `chunk.RowPtr`: (chunk index, row index) into a storage. -/
abbrev RowPtr := Nat × Nat

/-- The `baseHashTable` multimap from 64-bit hashes to row pointers,
as its entry list in insertion order. -/
abbrev HashTbl := List (Nat × RowPtr)

/-- `hashTbl.Get(k)`: all pointers stored under key `k`. -/
def htGet (t : HashTbl) (k : Nat) : List RowPtr :=
  (t.filter (fun e => e.1 == k)).map (fun e => e.2)

/-- `hashTbl.Put(k, ptr)`. -/
def htPut (t : HashTbl) (k : Nat) (ptr : RowPtr) : HashTbl :=
  t ++ [(k, ptr)]

/-- `cteutil.Storage`: an ordered chunk sequence with done flag, sticky
error and iteration tag. `doneCnt` and `reopens` are ghost call counters. -/
structure Storage where
  chunks : List Chunk
  done : Bool
  err : Option Err
  iter : Nat
  doneCnt : Nat
  reopens : Nat
deriving DecidableEq, Repr

/-- A freshly constructed storage (`NewStorageRowContainer` + `OpenAndRef`). -/
def Storage.new : Storage :=
  ⟨[], false, none, 0, 0, 0⟩

/-- `Storage.NumRows()`. -/
def Storage.numRows (s : Storage) : Nat :=
  (s.chunks.map List.length).sum

/-- `Storage.Add(chk)`: appends a batch; batches with no rows are ignored
(the storage implementation outside `src/` returns early on empty chunks,
matching this file's use of `NumChunks() == 0` as the fixpoint test). -/
def Storage.add (s : Storage) (c : Chunk) : Storage :=
  if c.isEmpty then s else { s with chunks := s.chunks ++ [c] }

/-- `Storage.GetRow(ptr)`; `none` when the pointer is out of range. -/
def storageGetRow (s : Storage) (ptr : RowPtr) : Option Row :=
  (s.chunks.get? ptr.1).bind (fun c => c.get? ptr.2)

/-- `Storage.Reopen()`: clears contents, resets done/error. -/
def Storage.reopen (s : Storage) : Storage :=
  { s with chunks := [], done := false, err := none, reopens := s.reopens + 1 }

/-- `Storage.SetDone()`. -/
def Storage.setDone (s : Storage) : Storage :=
  { s with done := true, doneCnt := s.doneCnt + 1 }

/-- `Storage.SetError(e)`. -/
def Storage.setError (s : Storage) (e : Err) : Storage :=
  { s with err := some e }

/-- `Storage.SetIter(n)`. -/
def Storage.setIter (s : Storage) (n : Nat) : Storage :=
  { s with iter := n }

/-- The `cteProducer` state: flags, the three tables, the hash index,
set-semantics flag, iteration counter, limit bounds and correlated-column
fingerprints. `openCalls` and `hashAllocs` are ghost call counters. -/
structure Producer where
  opened : Bool
  produced : Bool
  closed : Bool
  openErr : Option Err
  resTbl : Storage
  iterInTbl : Storage
  iterOutTbl : Storage
  hashTbl : HashTbl
  isDistinct : Bool
  curIter : Nat
  hasLimit : Bool
  limitBeg : Nat
  limitEnd : Nat
  corColHashCodes : List Nat
  openCalls : Nat
  hashAllocs : Nat
deriving DecidableEq, Repr

/-- The environment of one evaluation: the seed and recursive sub-plans
(their open results and the batch sequences their `Next` yields — the
recursive one as a function of the iteration number and the current
`iterInTbl` contents it reads through `CTETableReaderExec`), the row hash
function of `codec.HashChunkSelected`, and the session's
`CTEMaxRecursionDepth`. -/
structure Env where
  hasSeed : Bool
  hasRecursive : Bool
  seedOpenErr : Option Err
  recOpenErr : Option Err
  seedPulls : List Pull
  recFn : Nat → List Chunk → List Pull
  hash : Row → Nat
  maxDepth : Nat

/-- A `CTEExec` consumer cursor: chunk read position, limit row counter and
the first-qualifying-batch flag. -/
structure Consumer where
  chkIdx : Nat
  cursor : Nat
  meetFirstBatch : Bool
deriving DecidableEq, Repr

/-- `CTEExec.reset()`. -/
def consumerReset : Consumer :=
  ⟨0, 0, false⟩

/-- `cteProducer.limitDone(tbl)`: the limit is configured and `tbl` already
holds at least `limitEnd` rows. -/
def limitDone (p : Producer) (s : Storage) : Bool :=
  p.hasLimit && decide (p.limitEnd ≤ s.numRows)

/-! ### Deduplication engine -/

/-- `cteProducer.checkHasDup`: probe the bucket of `key` and fall back to
full value equality on each reachable row (`lookup` is `curChk.GetRow` for
the intra-chunk pass and `storage.GetRow` for the cross-chunk pass). -/
def checkHasDup (lookup : RowPtr → Option Row) (tbl : HashTbl) (key : Nat)
    (row : Row) : Bool :=
  (htGet tbl key).any (fun ptr => decide (lookup ptr = some row))

/-- The intra-chunk pass of `deduplicate` (step 2): scan the rows of `chk`
from position `i`, keeping a row when no previously kept row of the same
chunk hashes equal and is value-equal, and indexing kept rows by their row
position in a batch-scoped hash table. Returns the selection of kept
positions. -/
def dedupStage2Go (h : Row → Nat) (chk : List Row) :
    List Row → Nat → List Nat → HashTbl → List Nat
  | [], _, sel, _ => sel
  | r :: rs, i, sel, tbl =>
    if checkHasDup (fun ptr => chk.get? ptr.2) tbl (h r) r then
      dedupStage2Go h chk rs (i + 1) sel tbl
    else
      dedupStage2Go h chk rs (i + 1) (sel ++ [i]) (htPut tbl (h r) (0, i))

/-- The selection (`selChk`) produced by the intra-chunk pass on `chk`. -/
def dedupStage2 (h : Row → Nat) (chk : List Row) : List Nat :=
  dedupStage2Go h chk chk 0 [] []

/-- The rows surviving the intra-chunk pass of `deduplicate`. -/
def stage2Kept (h : Row → Nat) (chk : List Row) : List Row :=
  (dedupStage2 h chk).filterMap (fun i => chk.get? i)

/-- The cross-chunk pass of `deduplicate` (step 3): filter the surviving
rows against the target storage's persistent hash table; kept rows are
indexed under pointer (current `NumChunks()` of the target, position among
the surviving rows). -/
def dedupStage3Go (h : Row → Nat) (store : Storage) :
    List Row → List Row → HashTbl → List Row × HashTbl
  | [], acc, tbl => (acc, tbl)
  | r :: rs, acc, tbl =>
    if checkHasDup (fun ptr => storageGetRow store ptr) tbl (h r) r then
      dedupStage3Go h store rs acc tbl
    else
      dedupStage3Go h store rs (acc ++ [r])
        (htPut tbl (h r) (store.chunks.length, acc.length))

/-- `cteProducer.deduplicate(chk, storage, hashTbl)`: the final selection
applied to `chk`, and the updated persistent hash table. Chunks with no
rows are returned unchanged. -/
def deduplicate (h : Row → Nat) (chk : Chunk) (store : Storage)
    (tbl : HashTbl) : Chunk × HashTbl :=
  if chk.isEmpty then (chk, tbl)
  else dedupStage3Go h store (stage2Kept h chk) [] tbl

/-- `cteProducer.tryDedupAndAdd(chk, storage, hashTbl)`: deduplicate in
DISTINCT mode, then add; returns the (possibly filtered) chunk, the updated
storage and the updated hash table. -/
def tryDedupAndAddG (dist : Bool) (h : Row → Nat) (chk : Chunk)
    (store : Storage) (tbl : HashTbl) : Chunk × Storage × HashTbl :=
  if dist then
    let r := deduplicate h chk store tbl
    (r.1, store.add r.1, r.2)
  else
    (chk, store.add chk, tbl)

/-! ### Seed phase -/

/-- The pull loop of `computeSeedPart`: stop when the limit is already met
by `iterInTbl` or the seed yields an empty batch; each batch is
(optionally) deduplicated against `iterInTbl` and added there, and the
filtered batches are collected for the later `resTbl` adds. -/
def seedLoop (env : Env) : List Pull → Producer → List Chunk →
    Producer × List Chunk × Option Err
  | pulls, p, acc =>
    if limitDone p p.iterInTbl then (p, acc, none)
    else
      match pulls with
      | [] => (p, acc, none)
      | Except.error e :: _ => (p, acc, some e)
      | Except.ok c :: rest =>
        if c.isEmpty then (p, acc, none)
        else
          let r := tryDedupAndAddG p.isDistinct env.hash c p.iterInTbl p.hashTbl
          seedLoop env rest
            { p with iterInTbl := r.2.1, hashTbl := r.2.2 } (acc ++ [r.1])

/-- `cteProducer.computeSeedPart`: reset the iteration counter, pull the
seed sub-plan into `iterInTbl`, then add the collected batches to `resTbl`
(no re-deduplication: `resTbl` starts empty) and advance to iteration 1.
On a pull error, nothing is added to `resTbl` and the counter stays 0. -/
def computeSeedPart (env : Env) (p : Producer) : Producer × Option Err :=
  let p0 := { p with curIter := 0, iterInTbl := p.iterInTbl.setIter 0 }
  let r := seedLoop env env.seedPulls p0 []
  match r.2.2 with
  | some e => (r.1, some e)
  | none =>
    let p2 := { r.1 with resTbl := r.2.1.foldl Storage.add r.1.resTbl }
    ({ p2 with curIter := 1, iterInTbl := p2.iterInTbl.setIter 1 }, none)

/-! ### Rotation and the recursive phase -/

/-- The first half of `setupTblsForNewIteration`: fold each `iterOutTbl`
chunk into `resTbl` via `tryDedupAndAdd` (copy-construction before the
destructive selection update is identity on the logical rows), collecting
the filtered chunks. -/
def addChunksToRes (env : Env) : List Chunk → Producer → List Chunk →
    Producer × List Chunk
  | [], p, acc => (p, acc)
  | c :: cs, p, acc =>
    let r := tryDedupAndAddG p.isDistinct env.hash c p.resTbl p.hashTbl
    addChunksToRes env cs { p with resTbl := r.2.1, hashTbl := r.2.2 }
      (acc ++ [r.1])

/-- `cteProducer.setupTblsForNewIteration`: fold `iterOutTbl` into
`resTbl`, reopen `iterInTbl` and refill it (deduplicated copy in DISTINCT
mode; ownership transfer of `iterOutTbl`'s batches otherwise), then clear
`iterOutTbl`. -/
def setupTbls (env : Env) (p : Producer) : Producer :=
  let q := addChunksToRes env p.iterOutTbl.chunks p []
  let p2 := { q.1 with iterInTbl := q.1.iterInTbl.reopen }
  let p3 :=
    if p2.isDistinct then
      { p2 with iterInTbl := q.2.foldl Storage.add p2.iterInTbl }
    else
      { p2 with iterInTbl := { p2.iterInTbl with chunks := p2.iterOutTbl.chunks } }
  { p3 with iterOutTbl := p3.iterOutTbl.reopen }

theorem addChunksToRes_curIter (env : Env) :
    ∀ cs p acc, (addChunksToRes env cs p acc).1.curIter = p.curIter := by
  intro cs
  induction cs with
  | nil => intro p acc; rfl
  | cons c cs ih => intro p acc; simp [addChunksToRes, ih]

theorem setupTbls_curIter (env : Env) (p : Producer) :
    (setupTbls env p).curIter = p.curIter := by
  simp only [setupTbls]
  split <;> simp [addChunksToRes_curIter]

/-- The pull loop of `computeRecursivePart`: a non-empty batch goes to
`iterOutTbl`; an empty batch (or an exhausted pull stream) triggers the
rotation, after which the loop stops if the limit is met or the new
`iterInTbl` is empty, and otherwise advances the iteration counter, fails
if it exceeds the maximum recursion depth, and re-runs the recursive
sub-plan against the new iteration input. -/
def recLoop (env : Env) (p : Producer) (pulls : List Pull) :
    Producer × Option Err :=
  match pulls with
  | Except.error e :: _ => (p, some e)
  | Except.ok c :: rest =>
    if c.isEmpty then recLoop env p []
    else recLoop env { p with iterOutTbl := p.iterOutTbl.add c } rest
  | [] =>
    let q := setupTbls env p
    if limitDone q q.resTbl then (q, none)
    else if q.iterInTbl.chunks.isEmpty then (q, none)
    else
      let r := { q with curIter := q.curIter + 1,
                        iterInTbl := q.iterInTbl.setIter (q.curIter + 1) }
      if _hr : env.maxDepth < r.curIter then
        (r, some (Err.depthExceeded r.curIter))
      else
        recLoop env r (env.recFn r.curIter r.iterInTbl.chunks)
termination_by (env.maxDepth + 2 - p.curIter, pulls.length)
decreasing_by
  · apply Prod.Lex.right
    simp
  · apply Prod.Lex.right
    simp
  · apply Prod.Lex.left
    have hq : q.curIter = p.curIter := setupTbls_curIter env p
    simp only [not_lt] at _hr
    simp only [setupTbls_curIter] at _hr ⊢
    omega

/-- `cteProducer.computeRecursivePart`: no-op without a recursive sub-plan
or with an empty iteration input; fails if the iteration counter already
exceeds the maximum depth; skips if `resTbl` already satisfies the limit;
otherwise runs the pull/rotate loop. -/
def computeRecursivePart (env : Env) (p : Producer) :
    Producer × Option Err :=
  if !env.hasRecursive || p.iterInTbl.chunks.isEmpty then (p, none)
  else if env.maxDepth < p.curIter then
    (p, some (Err.depthExceeded p.curIter))
  else if limitDone p p.resTbl then (p, none)
  else recLoop env p (env.recFn p.curIter p.iterInTbl.chunks)

/-- `cteProducer.produce`: short-circuit on a latched `resTbl` error; run
the seed phase then the recursive phase, latching any error on `resTbl`
before returning it; on success mark `resTbl` done. -/
def produce (env : Env) (p : Producer) : Producer × Option Err :=
  match p.resTbl.err with
  | some e => (p, some e)
  | none =>
    let s := computeSeedPart env p
    match s.2 with
    | some e => ({ s.1 with resTbl := s.1.resTbl.setError e }, some e)
    | none =>
      let r := computeRecursivePart env s.1
      match r.2 with
      | some e => ({ r.1 with resTbl := r.1.resTbl.setError e }, some e)
      | none => ({ r.1 with resTbl := r.1.resTbl.setDone }, none)

/-! ### Consumer reads -/

/-- The first-batch scan of `nextChunkLimit` over the not-yet-read suffix
of `resTbl`: skip batches wholly before `limitBeg`; the first batch
reaching it is sliced to `[limitBeg - counter, min(rows, limitEnd -
counter))` and emitted (or, when that slice is empty, only marked found).
Returns (consumed chunk count, new cursor, found flag) and the emitted rows
(`none` when control falls through to the sequential phase). -/
def ncl1Go (B E : Nat) : List Chunk → Nat → (Nat × Nat × Bool) × Option (List Row)
  | [], cur => ((0, cur, false), none)
  | res :: rs, cur =>
    let numRows := res.length
    let newCursor := cur + numRows
    if B ≤ newCursor then
      let begInChk := B - cur
      let endInChk := if E < newCursor then E - cur else numRows
      if begInChk = endInChk then ((1, cur + endInChk, true), none)
      else ((1, cur + endInChk, true),
            some ((res.drop begInChk).take (endInChk - begInChk)))
    else
      let r := ncl1Go B E rs newCursor
      ((r.1.1 + 1, r.1.2.1, r.1.2.2), r.2)

/-- The sequential phase of `nextChunkLimit`: emit the next unread batch in
full, truncated at `limitEnd`; nothing once the cursor reached `limitEnd`.
Returns (consumed chunk count, new cursor) and the emitted rows. -/
def ncl2 (E : Nat) : List Chunk → Nat → (Nat × Nat) × List Row
  | [], cur => ((0, cur), [])
  | res :: _, cur =>
    if cur < E then
      let numRows := res.length
      if E < cur + numRows then ((1, E), res.take (E - cur))
      else ((1, cur + numRows), res)
    else ((0, cur), [])

/-- `cteProducer.nextChunkLimit`: the limit-aware read of one consumer. -/
def nextChunkLimit (B E : Nat) (chunks : List Chunk) (c : Consumer) :
    Consumer × List Row :=
  let rest := chunks.drop c.chkIdx
  if c.meetFirstBatch then
    let r := ncl2 E rest c.cursor
    (⟨c.chkIdx + r.1.1, r.1.2, true⟩, r.2)
  else
    match ncl1Go B E rest c.cursor with
    | ((n, cur, meet), some rows) => (⟨c.chkIdx + n, cur, meet⟩, rows)
    | ((n, cur, meet), none) =>
      let r := ncl2 E (rest.drop n) cur
      (⟨c.chkIdx + n + r.1.1, r.1.2, meet⟩, r.2)

/-- `cteProducer.getChunk`: limit-aware retrieval when a limit is
configured; otherwise copy out the next unread `resTbl` batch. -/
def getChunk (p : Producer) (c : Consumer) : Consumer × List Row :=
  if p.hasLimit then nextChunkLimit p.limitBeg p.limitEnd p.resTbl.chunks c
  else
    match p.resTbl.chunks.get? c.chkIdx with
    | some res => ({ c with chkIdx := c.chkIdx + 1 }, res)
    | none => (c, [])

/-- `CTEExec.Next`: trigger production unless `resTbl` is already done,
then read via `getChunk`. Returns the producer, the cursor, the rows copied
into the caller's chunk, and the error. -/
def nextStep (env : Env) (p : Producer) (c : Consumer) :
    Producer × Consumer × List Row × Option Err :=
  if p.resTbl.done then
    let r := getChunk p c
    (p, r.1, r.2, none)
  else
    let pr := produce env p
    match pr.2 with
    | some e => (pr.1, c, [], some e)
    | none =>
      let r := getChunk pr.1 c
      (pr.1, r.1, r.2, none)

/-- The emitted rows of `n` successive limit-aware `getChunk` calls of one
consumer over a finished `resTbl`, concatenated. -/
def emitCalls (B E : Nat) (chunks : List Chunk) : Nat → Consumer → List Row
  | 0, _ => []
  | n + 1, c =>
    let r := nextChunkLimit B E chunks c
    r.2 ++ emitCalls B E chunks n r.1

/-! ### Open path -/

/-- The DISTINCT tail of `openProducer`: allocate a fresh hash index and
record the full column list as the dedup key. -/
def finishOpen (p : Producer) : Producer :=
  if p.isDistinct then
    { p with hashTbl := [], hashAllocs := p.hashAllocs + 1 }
  else p

/-- `cteProducer.openProducer`: fail on a missing seed sub-plan or a
sub-plan open error; with a recursive sub-plan, construct `iterOutTbl`; in
DISTINCT mode allocate the hash index. The deferred epilogue records the
error in `openErr` and sets `opened` accordingly. -/
def openProducer (env : Env) (p : Producer) : Producer × Option Err :=
  let p0 := { p with openCalls := p.openCalls + 1 }
  let r : Producer × Option Err :=
    if !env.hasSeed then (p0, some Err.seedNil)
    else
      match env.seedOpenErr with
      | some e => (p0, some e)
      | none =>
        if env.hasRecursive then
          match env.recOpenErr with
          | some e => (p0, some e)
          | none => (finishOpen { p0 with iterOutTbl := Storage.new }, none)
        else (finishOpen p0, none)
  ({ r.1 with openErr := r.2, opened := r.2.isNone }, r.2)

/-- `cteProducer.reset()`. -/
def producerReset (p : Producer) : Producer :=
  { p with curIter := 0, hashTbl := [], opened := false, openErr := none,
           produced := false, closed := false }

/-- `cteProducer.reopenTbls()`: fresh hash index in DISTINCT mode, reopen
`resTbl` and `iterInTbl`. -/
def reopenTbls (p : Producer) : Producer :=
  let p1 :=
    if p.isDistinct then
      { p with hashTbl := [], hashAllocs := p.hashAllocs + 1 }
    else p
  { p1 with resTbl := p1.resTbl.reopen, iterInTbl := p1.iterInTbl.reopen }

/-- `cteProducer.checkAndUpdateCorColHashCode`: compare each correlated
column's freshly computed hash code with the stored one, updating the
store; reports whether any changed. -/
def checkAndUpdateCorCol : List Nat → List Nat → Bool × List Nat
  | o :: os, n :: ns =>
    let r := checkAndUpdateCorCol os ns
    (r.1 || decide (o ≠ n), n :: r.2)
  | os, _ => (false, os)

/-- The correlated-column block at the top of `CTEExec.Open`: on any
changed fingerprint, fully reset the producer and reopen the tables. -/
def corColStep (newCodes : List Nat) (p : Producer) : Producer :=
  let ch := checkAndUpdateCorCol p.corColHashCodes newCodes
  let p1 := { p with corColHashCodes := ch.2 }
  if ch.1 then reopenTbls (producerReset p1) else p1

/-- `CTEExec.Open`: reset the cursor, run the correlated-column check,
return a sticky `openErr` if set, and otherwise open the producer if it is
not yet opened. -/
def cteOpen (env : Env) (newCodes : List Nat) (p : Producer) (_c : Consumer) :
    Producer × Consumer × Option Err :=
  let p2 := corColStep newCodes p
  match p2.openErr with
  | some e => (p2, consumerReset, some e)
  | none =>
    if !p2.opened then
      let r := openProducer env p2
      (r.1, consumerReset, r.2)
    else (p2, consumerReset, none)

/-! ### Iteration-major view of the recursive loop -/

/-- Accumulate one open-cycle's pulls into `iterOutTbl` up to the first
empty batch (or the end of the stream); a pull error aborts. -/
def addPulls (p : Producer) : List Pull → Except (Producer × Err) Producer
  | [] => Except.ok p
  | Except.error e :: _ => Except.error (p, e)
  | Except.ok c :: rest =>
    if c.isEmpty then Except.ok p
    else addPulls { p with iterOutTbl := p.iterOutTbl.add c } rest

/-- Outcome of one full iteration of the recursive phase, before the
depth check: finished, failed on a pull error, or ready for the next
iteration with the counter advanced. -/
inductive IterStep where
  | stop : Producer → IterStep
  | fail : Producer → Err → IterStep
  | next : Producer → IterStep
deriving DecidableEq

/-- One full iteration: run the recursive sub-plan against the current
`iterInTbl`, rotate, and stop if the limit is met or the new input is
empty; otherwise advance the counter (the depth check itself is not part
of this step). -/
def oneCycle (env : Env) (p : Producer) : IterStep :=
  match addPulls p (env.recFn p.curIter p.iterInTbl.chunks) with
  | Except.error (q, e) => IterStep.fail q e
  | Except.ok q =>
    let s := setupTbls env q
    if limitDone s s.resTbl then IterStep.stop s
    else if s.iterInTbl.chunks.isEmpty then IterStep.stop s
    else IterStep.next { s with curIter := s.curIter + 1,
                                iterInTbl := s.iterInTbl.setIter (s.curIter + 1) }

/-- `iterN n`: the state after `n` consecutive continuing iterations of
the depth-unlimited recursion (`none` if it stops, fails, or ends sooner).
This expresses "the true fixpoint requires more than `n` iterations". -/
def iterN : Nat → Env → Producer → Option Producer
  | 0, _, p => some p
  | n + 1, env, p =>
    match oneCycle env p with
    | IterStep.next q => iterN n env q
    | _ => none

/-- `runsToStopE k`: the final state when the depth-unlimited recursion
performs exactly `k` continuing iterations and then stops at a fixpoint or
a satisfied limit (`none` otherwise). -/
def runsToStopE : Nat → Env → Producer → Option Producer
  | 0, env, p =>
    match oneCycle env p with
    | IterStep.stop q => some q
    | _ => none
  | k + 1, env, p =>
    match oneCycle env p with
    | IterStep.next q => runsToStopE k env q
    | _ => none

/-! ### Basic storage and hash-table lemmas -/

@[simp] theorem Storage.add_done (s : Storage) (c : Chunk) :
    (s.add c).done = s.done := by
  simp only [Storage.add]; split <;> rfl

@[simp] theorem Storage.add_err (s : Storage) (c : Chunk) :
    (s.add c).err = s.err := by
  simp only [Storage.add]; split <;> rfl

@[simp] theorem Storage.add_doneCnt (s : Storage) (c : Chunk) :
    (s.add c).doneCnt = s.doneCnt := by
  simp only [Storage.add]; split <;> rfl

@[simp] theorem Storage.add_iter (s : Storage) (c : Chunk) :
    (s.add c).iter = s.iter := by
  simp only [Storage.add]; split <;> rfl

@[simp] theorem Storage.add_reopens (s : Storage) (c : Chunk) :
    (s.add c).reopens = s.reopens := by
  simp only [Storage.add]; split <;> rfl

@[simp] theorem Storage.add_numRows (s : Storage) (c : Chunk) :
    (s.add c).numRows = s.numRows + c.length := by
  simp only [Storage.add, Storage.numRows]
  split
  · next hc => simp [List.isEmpty_iff.mp hc]
  · simp

@[simp] theorem Storage.setIter_chunks (s : Storage) (n : Nat) :
    (s.setIter n).chunks = s.chunks := rfl

@[simp] theorem Storage.setIter_done (s : Storage) (n : Nat) :
    (s.setIter n).done = s.done := rfl

@[simp] theorem Storage.setIter_err (s : Storage) (n : Nat) :
    (s.setIter n).err = s.err := rfl

@[simp] theorem Storage.setIter_doneCnt (s : Storage) (n : Nat) :
    (s.setIter n).doneCnt = s.doneCnt := rfl

@[simp] theorem Storage.setIter_numRows (s : Storage) (n : Nat) :
    (s.setIter n).numRows = s.numRows := rfl

@[simp] theorem Storage.setDone_done (s : Storage) : s.setDone.done = true := rfl

@[simp] theorem Storage.setDone_doneCnt (s : Storage) :
    s.setDone.doneCnt = s.doneCnt + 1 := rfl

@[simp] theorem Storage.setDone_err (s : Storage) : s.setDone.err = s.err := rfl

@[simp] theorem Storage.setError_err (s : Storage) (e : Err) :
    (s.setError e).err = some e := rfl

@[simp] theorem Storage.setError_done (s : Storage) (e : Err) :
    (s.setError e).done = s.done := rfl

@[simp] theorem Storage.setError_doneCnt (s : Storage) (e : Err) :
    (s.setError e).doneCnt = s.doneCnt := rfl

@[simp] theorem Storage.reopen_chunks (s : Storage) : s.reopen.chunks = [] := rfl

@[simp] theorem Storage.reopen_done (s : Storage) : s.reopen.done = false := rfl

@[simp] theorem Storage.reopen_err (s : Storage) : s.reopen.err = none := rfl

@[simp] theorem Storage.reopen_doneCnt (s : Storage) :
    s.reopen.doneCnt = s.doneCnt := rfl

@[simp] theorem Storage.reopen_reopens (s : Storage) :
    s.reopen.reopens = s.reopens + 1 := rfl

theorem foldl_add_done : ∀ (cs : List Chunk) (s : Storage),
    (cs.foldl Storage.add s).done = s.done := by
  intro cs
  induction cs with
  | nil => intro s; rfl
  | cons c cs ih => intro s; simp [List.foldl_cons, ih]

theorem foldl_add_err : ∀ (cs : List Chunk) (s : Storage),
    (cs.foldl Storage.add s).err = s.err := by
  intro cs
  induction cs with
  | nil => intro s; rfl
  | cons c cs ih => intro s; simp [List.foldl_cons, ih]

theorem foldl_add_doneCnt : ∀ (cs : List Chunk) (s : Storage),
    (cs.foldl Storage.add s).doneCnt = s.doneCnt := by
  intro cs
  induction cs with
  | nil => intro s; rfl
  | cons c cs ih => intro s; simp [List.foldl_cons, ih]

theorem mem_htGet {t : HashTbl} {k : Nat} {ptr : RowPtr} :
    ptr ∈ htGet t k ↔ (k, ptr) ∈ t := by
  simp only [htGet, List.mem_map, List.mem_filter, beq_iff_eq]
  constructor
  · rintro ⟨⟨k', p'⟩, ⟨hmem, hk⟩, rfl⟩
    simp only at hk
    subst hk; exact hmem
  · intro hmem; exact ⟨(k, ptr), ⟨hmem, rfl⟩, rfl⟩

/-- Duplicate classification is sound: `checkHasDup` reports a duplicate
exactly when some pointer in the probed bucket resolves to a row that is
value-equal to the probed row. -/
theorem checkHasDup_iff (lookup : RowPtr → Option Row) (tbl : HashTbl)
    (key : Nat) (row : Row) :
    checkHasDup lookup tbl key row = true ↔
      ∃ ptr, (key, ptr) ∈ tbl ∧ lookup ptr = some row := by
  simp only [checkHasDup, List.any_eq_true, decide_eq_true_eq]
  constructor
  · rintro ⟨ptr, hmem, hl⟩; exact ⟨ptr, mem_htGet.mp hmem, hl⟩
  · rintro ⟨ptr, hmem, hl⟩; exact ⟨ptr, mem_htGet.mpr hmem, hl⟩

/-! ### Shape lemmas: which fields each phase touches -/

theorem addPulls_ok_shape : ∀ (pulls : List Pull) (p q : Producer),
    addPulls p pulls = Except.ok q →
    q = { p with iterOutTbl := q.iterOutTbl } := by
  intro pulls
  induction pulls with
  | nil =>
    intro p q h
    simp only [addPulls] at h
    cases h; rfl
  | cons pr rest ih =>
    intro p q h
    match pr with
    | Except.error e => simp [addPulls] at h
    | Except.ok c =>
      simp only [addPulls] at h
      split at h
      · cases h; rfl
      · have := ih _ _ h
        rw [this]

theorem addPulls_err_shape : ∀ (pulls : List Pull) (p q : Producer) (e : Err),
    addPulls p pulls = Except.error (q, e) →
    q = { p with iterOutTbl := q.iterOutTbl } := by
  intro pulls
  induction pulls with
  | nil => intro p q e h; simp [addPulls] at h
  | cons pr rest ih =>
    intro p q e h
    match pr with
    | Except.error e' =>
      simp only [addPulls] at h
      cases h; rfl
    | Except.ok c =>
      simp only [addPulls] at h
      split at h
      · simp at h
      · have := ih _ _ _ h
        rw [this]

theorem addChunksToRes_shape (env : Env) : ∀ (cs : List Chunk) (p : Producer)
    (acc : List Chunk),
    (addChunksToRes env cs p acc).1 =
      { p with resTbl := (addChunksToRes env cs p acc).1.resTbl,
               hashTbl := (addChunksToRes env cs p acc).1.hashTbl } := by
  intro cs
  induction cs with
  | nil => intro p acc; rfl
  | cons c cs ih =>
    intro p acc
    simp only [addChunksToRes]
    rw [ih]

theorem addChunksToRes_resTbl_meta (env : Env) : ∀ (cs : List Chunk)
    (p : Producer) (acc : List Chunk),
    (addChunksToRes env cs p acc).1.resTbl.done = p.resTbl.done ∧
    (addChunksToRes env cs p acc).1.resTbl.err = p.resTbl.err ∧
    (addChunksToRes env cs p acc).1.resTbl.doneCnt = p.resTbl.doneCnt := by
  intro cs
  induction cs with
  | nil => intro p acc; exact ⟨rfl, rfl, rfl⟩
  | cons c cs ih =>
    intro p acc
    simp only [addChunksToRes]
    refine ⟨?_, ?_, ?_⟩ <;>
      simp [(ih _ _).1, (ih _ _).2.1, (ih _ _).2.2, tryDedupAndAddG] <;>
      split <;> simp

theorem setupTbls_resTbl_meta (env : Env) (p : Producer) :
    (setupTbls env p).resTbl.done = p.resTbl.done ∧
    (setupTbls env p).resTbl.err = p.resTbl.err ∧
    (setupTbls env p).resTbl.doneCnt = p.resTbl.doneCnt := by
  simp only [setupTbls]
  have h := addChunksToRes_resTbl_meta env p.iterOutTbl.chunks p []
  split <;> exact ⟨h.1, h.2.1, h.2.2⟩

/-! ### Unfolding the recursive loop into iterations -/

theorem recLoop_error (env : Env) (p : Producer) (e : Err) (rest : List Pull) :
    recLoop env p (Except.error e :: rest) = (p, some e) := by
  rw [recLoop]

theorem recLoop_ok_cons (env : Env) (p : Producer) (c : Chunk) (rest : List Pull) :
    recLoop env p (Except.ok c :: rest) =
      if c.isEmpty then recLoop env p []
      else recLoop env { p with iterOutTbl := p.iterOutTbl.add c } rest := by
  rw [recLoop]

theorem recLoop_nil (env : Env) (p : Producer) :
    recLoop env p [] =
      (let q := setupTbls env p
       if limitDone q q.resTbl then (q, none)
       else if q.iterInTbl.chunks.isEmpty then (q, none)
       else
         let r := { q with curIter := q.curIter + 1,
                           iterInTbl := q.iterInTbl.setIter (q.curIter + 1) }
         if env.maxDepth < r.curIter then (r, some (Err.depthExceeded r.curIter))
         else recLoop env r (env.recFn r.curIter r.iterInTbl.chunks)) := by
  rw [recLoop]
  simp only [dite_eq_ite]

theorem recLoop_eq_addPulls (env : Env) : ∀ (pulls : List Pull) (p : Producer),
    recLoop env p pulls =
      match addPulls p pulls with
      | Except.error (q, e) => (q, some e)
      | Except.ok q => recLoop env q [] := by
  intro pulls
  induction pulls with
  | nil => intro p; simp [addPulls]
  | cons pr rest ih =>
    intro p
    match pr with
    | Except.error e => rw [recLoop_error]; simp [addPulls]
    | Except.ok c =>
      rw [recLoop_ok_cons]
      by_cases hc : c.isEmpty
      · simp [hc, addPulls]
      · simp [hc, addPulls, ih]

theorem oneCycle_fail_recLoop (env : Env) (p q : Producer) (e : Err)
    (h : oneCycle env p = IterStep.fail q e) :
    recLoop env p (env.recFn p.curIter p.iterInTbl.chunks) = (q, some e) := by
  rw [recLoop_eq_addPulls]
  simp only [oneCycle] at h
  cases hap : addPulls p (env.recFn p.curIter p.iterInTbl.chunks) with
  | error pe =>
    rw [hap] at h
    cases h
    rfl
  | ok q0 =>
    rw [hap] at h
    simp only at h
    split at h
    · cases h
    · split at h <;> cases h

theorem oneCycle_stop_recLoop (env : Env) (p q : Producer)
    (h : oneCycle env p = IterStep.stop q) :
    recLoop env p (env.recFn p.curIter p.iterInTbl.chunks) = (q, none) := by
  rw [recLoop_eq_addPulls]
  simp only [oneCycle] at h
  cases hap : addPulls p (env.recFn p.curIter p.iterInTbl.chunks) with
  | error pe => rw [hap] at h; cases h
  | ok q0 =>
    rw [hap] at h
    simp only at h
    show recLoop env q0 [] = (q, none)
    rw [recLoop_nil]
    simp only
    split at h
    · cases h
      next hl => simp [hl]
    · split at h
      · cases h
        next hl hempty => simp [hl, hempty]
      · cases h

theorem oneCycle_next_recLoop (env : Env) (p q : Producer)
    (h : oneCycle env p = IterStep.next q) :
    recLoop env p (env.recFn p.curIter p.iterInTbl.chunks) =
      if env.maxDepth < q.curIter then (q, some (Err.depthExceeded q.curIter))
      else recLoop env q (env.recFn q.curIter q.iterInTbl.chunks) := by
  rw [recLoop_eq_addPulls]
  simp only [oneCycle] at h
  cases hap : addPulls p (env.recFn p.curIter p.iterInTbl.chunks) with
  | error pe => rw [hap] at h; cases h
  | ok q0 =>
    rw [hap] at h
    simp only at h
    show recLoop env q0 [] =
      if env.maxDepth < q.curIter then (q, some (Err.depthExceeded q.curIter))
      else recLoop env q (env.recFn q.curIter q.iterInTbl.chunks)
    rw [recLoop_nil]
    simp only
    split at h
    · cases h
    · split at h
      · cases h
      · cases h
        next hl hempty => simp [hl, hempty]

theorem oneCycle_next_curIter (env : Env) (p q : Producer)
    (h : oneCycle env p = IterStep.next q) : q.curIter = p.curIter + 1 := by
  simp only [oneCycle] at h
  cases hap : addPulls p (env.recFn p.curIter p.iterInTbl.chunks) with
  | error pe => rw [hap] at h; cases h
  | ok q0 =>
    rw [hap] at h
    simp only at h
    have hq0 : q0.curIter = p.curIter := by
      rw [addPulls_ok_shape _ _ _ hap]
    split at h
    · cases h
    · split at h
      · cases h
      · cases h
        simp [setupTbls_curIter, hq0]

theorem oneCycle_resTbl_meta (env : Env) (p : Producer) :
    (∀ q, oneCycle env p = IterStep.stop q →
       q.resTbl.done = p.resTbl.done ∧ q.resTbl.err = p.resTbl.err ∧
       q.resTbl.doneCnt = p.resTbl.doneCnt) ∧
    (∀ q e, oneCycle env p = IterStep.fail q e →
       q.resTbl.done = p.resTbl.done ∧ q.resTbl.err = p.resTbl.err ∧
       q.resTbl.doneCnt = p.resTbl.doneCnt) ∧
    (∀ q, oneCycle env p = IterStep.next q →
       q.resTbl.done = p.resTbl.done ∧ q.resTbl.err = p.resTbl.err ∧
       q.resTbl.doneCnt = p.resTbl.doneCnt) := by
  refine ⟨?_, ?_, ?_⟩ <;> intro q
  · intro h
    simp only [oneCycle] at h
    cases hap : addPulls p (env.recFn p.curIter p.iterInTbl.chunks) with
    | error pe => rw [hap] at h; cases h
    | ok q0 =>
      rw [hap] at h
      simp only at h
      have hq0 : q0.resTbl = p.resTbl := by
        rw [addPulls_ok_shape _ _ _ hap]
      have hm := setupTbls_resTbl_meta env q0
      split at h
      · cases h; rw [← hq0]; exact hm
      · split at h
        · cases h; rw [← hq0]; exact hm
        · cases h
  · intro e h
    simp only [oneCycle] at h
    cases hap : addPulls p (env.recFn p.curIter p.iterInTbl.chunks) with
    | error pe =>
      rw [hap] at h
      cases h
      have : pe.1 = { p with iterOutTbl := pe.1.iterOutTbl } :=
        addPulls_err_shape _ _ _ _ hap
      rw [this]
      exact ⟨rfl, rfl, rfl⟩
    | ok q0 =>
      rw [hap] at h
      simp only at h
      split at h
      · cases h
      · split at h <;> cases h
  · intro h
    simp only [oneCycle] at h
    cases hap : addPulls p (env.recFn p.curIter p.iterInTbl.chunks) with
    | error pe => rw [hap] at h; cases h
    | ok q0 =>
      rw [hap] at h
      simp only at h
      have hq0 : q0.resTbl = p.resTbl := by
        rw [addPulls_ok_shape _ _ _ hap]
      have hm := setupTbls_resTbl_meta env q0
      split at h
      · cases h
      · split at h
        · cases h
        · cases h
          rw [← hq0]
          exact hm

theorem iterN_resTbl_meta : ∀ (k : Nat) (env : Env) (p q : Producer),
    iterN k env p = some q →
    q.resTbl.done = p.resTbl.done ∧ q.resTbl.err = p.resTbl.err ∧
    q.resTbl.doneCnt = p.resTbl.doneCnt := by
  intro k
  induction k with
  | zero =>
    intro env p q h
    simp only [iterN] at h
    cases h
    exact ⟨rfl, rfl, rfl⟩
  | succ n ih =>
    intro env p q h
    simp only [iterN] at h
    cases hoc : oneCycle env p with
    | next q1 =>
      rw [hoc] at h
      have h1 := (oneCycle_resTbl_meta env p).2.2 q1 hoc
      have h2 := ih env q1 q h
      exact ⟨h2.1.trans h1.1, h2.2.1.trans h1.2.1, h2.2.2.trans h1.2.2⟩
    | stop q1 => rw [hoc] at h; cases h
    | fail q1 e => rw [hoc] at h; cases h

theorem runsToStopE_resTbl_meta : ∀ (k : Nat) (env : Env) (p q : Producer),
    runsToStopE k env p = some q →
    q.resTbl.done = p.resTbl.done ∧ q.resTbl.err = p.resTbl.err ∧
    q.resTbl.doneCnt = p.resTbl.doneCnt := by
  intro k
  induction k with
  | zero =>
    intro env p q h
    simp only [runsToStopE] at h
    cases hoc : oneCycle env p with
    | stop q1 =>
      rw [hoc] at h
      have hk : q1 = q := by simpa using h
      subst hk
      exact (oneCycle_resTbl_meta env p).1 q1 hoc
    | next q1 => rw [hoc] at h; cases h
    | fail q1 e => rw [hoc] at h; cases h
  | succ n ih =>
    intro env p q h
    simp only [runsToStopE] at h
    cases hoc : oneCycle env p with
    | next q1 =>
      rw [hoc] at h
      have h1 := (oneCycle_resTbl_meta env p).2.2 q1 hoc
      have h2 := ih env q1 q h
      exact ⟨h2.1.trans h1.1, h2.2.1.trans h1.2.1, h2.2.2.trans h1.2.2⟩
    | stop q1 => rw [hoc] at h; cases h
    | fail q1 e => rw [hoc] at h; cases h

/-- When the depth-free recursion stops (fixpoint or satisfied limit) after
`k` continuing iterations and the iteration counter stays within the
maximum depth, the loop of `computeRecursivePart` succeeds with that
state. -/
theorem recLoop_stops (env : Env) : ∀ (k : Nat) (p q : Producer),
    runsToStopE k env p = some q → p.curIter + k ≤ env.maxDepth →
    recLoop env p (env.recFn p.curIter p.iterInTbl.chunks) = (q, none) := by
  intro k
  induction k with
  | zero =>
    intro p q h _
    simp only [runsToStopE] at h
    cases hoc : oneCycle env p with
    | stop q1 =>
      rw [hoc] at h
      have hk : q1 = q := by simpa using h
      subst hk
      exact oneCycle_stop_recLoop env p q1 hoc
    | next q1 => rw [hoc] at h; cases h
    | fail q1 e => rw [hoc] at h; cases h
  | succ n ih =>
    intro p q h hd
    simp only [runsToStopE] at h
    cases hoc : oneCycle env p with
    | next q1 =>
      rw [hoc] at h
      have hc1 : q1.curIter = p.curIter + 1 := oneCycle_next_curIter env p q1 hoc
      rw [oneCycle_next_recLoop env p q1 hoc]
      have hle : ¬ env.maxDepth < q1.curIter := by omega
      rw [if_neg hle]
      exact ih q1 q h (by omega)
    | stop q1 => rw [hoc] at h; cases h
    | fail q1 e => rw [hoc] at h; cases h

/-- When the depth-free recursion still continues after enough iterations
to push the counter past the maximum depth, the loop of
`computeRecursivePart` fails with `depthExceeded (maxDepth + 1)` at the
state reached by those iterations. -/
theorem recLoop_depth (env : Env) : ∀ (j : Nat) (p q : Producer),
    iterN (j + 1) env p = some q → p.curIter + (j + 1) = env.maxDepth + 1 →
    recLoop env p (env.recFn p.curIter p.iterInTbl.chunks) =
      (q, some (Err.depthExceeded (env.maxDepth + 1))) := by
  intro j
  induction j with
  | zero =>
    intro p q h hd
    simp only [iterN] at h
    cases hoc : oneCycle env p with
    | next q1 =>
      rw [hoc] at h
      have hk : q1 = q := by simpa using h
      subst hk
      have hc1 : q1.curIter = p.curIter + 1 := oneCycle_next_curIter env p q1 hoc
      rw [oneCycle_next_recLoop env p q1 hoc]
      have hgt : env.maxDepth < q1.curIter := by omega
      rw [if_pos hgt, hc1, hd]
    | stop q1 => rw [hoc] at h; cases h
    | fail q1 e => rw [hoc] at h; cases h
  | succ n ih =>
    intro p q h hd
    simp only [iterN] at h
    cases hoc : oneCycle env p with
    | next q1 =>
      rw [hoc] at h
      have hc1 : q1.curIter = p.curIter + 1 := oneCycle_next_curIter env p q1 hoc
      rw [oneCycle_next_recLoop env p q1 hoc]
      have hle : ¬ env.maxDepth < q1.curIter := by omega
      rw [if_neg hle]
      exact ih q1 q h (by omega)
    | stop q1 => rw [hoc] at h; cases h
    | fail q1 e => rw [hoc] at h; cases h

/-! ### Seed-phase lemmas -/

theorem seedLoop_unfold (env : Env) (pulls : List Pull) (p : Producer)
    (acc : List Chunk) :
    seedLoop env pulls p acc =
      if limitDone p p.iterInTbl then (p, acc, none)
      else
        match pulls with
        | [] => (p, acc, none)
        | Except.error e :: _ => (p, acc, some e)
        | Except.ok c :: rest =>
          if c.isEmpty then (p, acc, none)
          else
            let r := tryDedupAndAddG p.isDistinct env.hash c p.iterInTbl p.hashTbl
            seedLoop env rest
              { p with iterInTbl := r.2.1, hashTbl := r.2.2 } (acc ++ [r.1]) := by
  rw [seedLoop.eq_def]

theorem seedLoop_resTbl (env : Env) : ∀ (pulls : List Pull) (p : Producer)
    (acc : List Chunk),
    (seedLoop env pulls p acc).1.resTbl = p.resTbl := by
  intro pulls
  induction pulls with
  | nil =>
    intro p acc
    rw [seedLoop_unfold]
    split <;> rfl
  | cons pr rest ih =>
    intro p acc
    rw [seedLoop_unfold]
    split
    · rfl
    · cases pr with
      | error e => rfl
      | ok c =>
        simp only
        split
        · rfl
        · rw [ih]

theorem computeSeedPart_resTbl_meta (env : Env) (p : Producer) :
    (computeSeedPart env p).1.resTbl.done = p.resTbl.done ∧
    (computeSeedPart env p).1.resTbl.err = p.resTbl.err ∧
    (computeSeedPart env p).1.resTbl.doneCnt = p.resTbl.doneCnt := by
  simp only [computeSeedPart]
  have hs := seedLoop_resTbl env env.seedPulls
    { p with curIter := 0, iterInTbl := p.iterInTbl.setIter 0 } []
  split
  · rw [hs]
    exact ⟨rfl, rfl, rfl⟩
  · simp only
    refine ⟨?_, ?_, ?_⟩
    · rw [foldl_add_done, hs]
    · rw [foldl_add_err, hs]
    · rw [foldl_add_doneCnt, hs]

theorem computeSeedPart_ok_curIter (env : Env) (p : Producer)
    (h : (computeSeedPart env p).2 = none) :
    (computeSeedPart env p).1.curIter = 1 := by
  simp only [computeSeedPart] at h ⊢
  split at h
  · simp at h
  · rfl

/-! ### Production-level characterizations -/

/-! Equation lemmas for `produce`, one per control path. -/

theorem produce_eq_short (env : Env) (p : Producer) (e : Err)
    (h : p.resTbl.err = some e) : produce env p = (p, some e) := by
  simp only [produce, h]

theorem produce_eq_seedErr (env : Env) (p : Producer) (e : Err)
    (h0 : p.resTbl.err = none) (h1 : (computeSeedPart env p).2 = some e) :
    produce env p =
      ({ (computeSeedPart env p).1 with
         resTbl := (computeSeedPart env p).1.resTbl.setError e }, some e) := by
  simp only [produce, h0, h1]

theorem produce_eq_recErr (env : Env) (p : Producer) (e : Err)
    (h0 : p.resTbl.err = none) (h1 : (computeSeedPart env p).2 = none)
    (h2 : (computeRecursivePart env (computeSeedPart env p).1).2 = some e) :
    produce env p =
      ({ (computeRecursivePart env (computeSeedPart env p).1).1 with
         resTbl := (computeRecursivePart env
           (computeSeedPart env p).1).1.resTbl.setError e }, some e) := by
  simp only [produce, h0, h1, h2]

theorem produce_eq_ok (env : Env) (p : Producer)
    (h0 : p.resTbl.err = none) (h1 : (computeSeedPart env p).2 = none)
    (h2 : (computeRecursivePart env (computeSeedPart env p).1).2 = none) :
    produce env p =
      ({ (computeRecursivePart env (computeSeedPart env p).1).1 with
         resTbl := (computeRecursivePart env
           (computeSeedPart env p).1).1.resTbl.setDone }, none) := by
  simp only [produce, h0, h1, h2]

/-- Any error produced by either phase is latched on `resTbl` before
`produce` returns it; a latched error short-circuits `produce` entirely,
returning the state unchanged. -/
theorem produce_err_latched (env : Env) (p : Producer) (e : Err) :
    ((produce env p).2 = some e → (produce env p).1.resTbl.err = some e) ∧
    (p.resTbl.err = some e → produce env p = (p, some e)) := by
  constructor
  · intro h
    cases hre : p.resTbl.err with
    | some e0 =>
      rw [produce_eq_short env p e0 hre] at h ⊢
      cases h
      exact hre
    | none =>
      cases hs : (computeSeedPart env p).2 with
      | some e1 =>
        rw [produce_eq_seedErr env p e1 hre hs] at h ⊢
        cases h
        simp
      | none =>
        cases hr : (computeRecursivePart env (computeSeedPart env p).1).2 with
        | some e2 =>
          rw [produce_eq_recErr env p e2 hre hs hr] at h ⊢
          cases h
          simp
        | none =>
          rw [produce_eq_ok env p hre hs hr] at h
          cases h
  · intro h
    exact produce_eq_short env p e h

theorem produce_ok_done (env : Env) (p : Producer)
    (h : (produce env p).2 = none) :
    (produce env p).1.resTbl.done = true := by
  cases hre : p.resTbl.err with
  | some e0 => rw [produce_eq_short env p e0 hre] at h; cases h
  | none =>
    cases hs : (computeSeedPart env p).2 with
    | some e1 => rw [produce_eq_seedErr env p e1 hre hs] at h; cases h
    | none =>
      cases hr : (computeRecursivePart env (computeSeedPart env p).1).2 with
      | some e2 => rw [produce_eq_recErr env p e2 hre hs hr] at h; cases h
      | none =>
        rw [produce_eq_ok env p hre hs hr]
        simp

theorem computeRecursivePart_eq_loop (env : Env) (p : Producer)
    (hrec : env.hasRecursive = true) (hin : p.iterInTbl.chunks.isEmpty = false)
    (hd : ¬ env.maxDepth < p.curIter) (hl : limitDone p p.resTbl = false) :
    computeRecursivePart env p =
      recLoop env p (env.recFn p.curIter p.iterInTbl.chunks) := by
  simp only [computeRecursivePart, hrec, hin, hl, Bool.not_true, Bool.or_self,
    Bool.false_eq_true, if_false, if_neg hd]

theorem computeRecursivePart_eq_depthEntry (env : Env) (p : Producer)
    (hrec : env.hasRecursive = true) (hin : p.iterInTbl.chunks.isEmpty = false)
    (hd : env.maxDepth < p.curIter) :
    computeRecursivePart env p = (p, some (Err.depthExceeded p.curIter)) := by
  simp only [computeRecursivePart, hrec, hin, Bool.not_true, Bool.or_self,
    Bool.false_eq_true, if_false, if_pos hd]

/-- When the seed phase succeeds, the recursive phase has work to do, and
the true (depth-free) fixpoint still continues after `maxDepth` iterations,
`produce` fails with `depthExceeded (maxDepth + 1)` and `resTbl` is not
marked done. -/
theorem produce_depth (env : Env) (p : Producer)
    (hne : p.resTbl.err = none)
    (hs : (computeSeedPart env p).2 = none)
    (hrec : env.hasRecursive = true)
    (hin : (computeSeedPart env p).1.iterInTbl.chunks.isEmpty = false)
    (hlim : limitDone (computeSeedPart env p).1
      (computeSeedPart env p).1.resTbl = false)
    (hiter : (iterN env.maxDepth env (computeSeedPart env p).1).isSome = true) :
    (produce env p).2 = some (Err.depthExceeded (env.maxDepth + 1)) ∧
    (produce env p).1.resTbl.done = p.resTbl.done ∧
    (produce env p).1.resTbl.doneCnt = p.resTbl.doneCnt := by
  have hc1 : (computeSeedPart env p).1.curIter = 1 :=
    computeSeedPart_ok_curIter env p hs
  have hsm := computeSeedPart_resTbl_meta env p
  by_cases hD : env.maxDepth = 0
  · have hd : env.maxDepth < (computeSeedPart env p).1.curIter := by omega
    have hrcr := computeRecursivePart_eq_depthEntry env
      (computeSeedPart env p).1 hrec hin hd
    have h2 : (computeRecursivePart env (computeSeedPart env p).1).2 =
        some (Err.depthExceeded (env.maxDepth + 1)) := by
      rw [hrcr]
      simp [hc1, hD]
    rw [produce_eq_recErr env p _ hne hs h2]
    refine ⟨rfl, ?_, ?_⟩ <;> simp only [Storage.setError_done, Storage.setError_doneCnt]
    · rw [hrcr]
      exact hsm.1
    · rw [hrcr]
      exact hsm.2.2
  · have hd : ¬ env.maxDepth < (computeSeedPart env p).1.curIter := by omega
    rw [Option.isSome_iff_exists] at hiter
    obtain ⟨q, hq⟩ := hiter
    have hDsplit : env.maxDepth = (env.maxDepth - 1) + 1 := by omega
    have hq' : iterN ((env.maxDepth - 1) + 1) env (computeSeedPart env p).1 = some q := by
      rw [← hDsplit]; exact hq
    have hloop := recLoop_depth env (env.maxDepth - 1) (computeSeedPart env p).1 q
      hq' (by omega)
    have hrcr := computeRecursivePart_eq_loop env (computeSeedPart env p).1
      hrec hin hd hlim
    have h2 : (computeRecursivePart env (computeSeedPart env p).1).2 =
        some (Err.depthExceeded (env.maxDepth + 1)) := by
      rw [hrcr, hloop]
    have hqm := iterN_resTbl_meta _ env _ _ hq
    rw [produce_eq_recErr env p _ hne hs h2]
    refine ⟨rfl, ?_, ?_⟩ <;> simp only [Storage.setError_done, Storage.setError_doneCnt]
    · rw [hrcr, hloop]
      exact hqm.1.trans hsm.1
    · rw [hrcr, hloop]
      exact hqm.2.2.trans hsm.2.2

/-- When the seed phase succeeds and the recursion stops (fixpoint reached
or limit satisfied) after `k` continuing iterations with `1 + k` within the
maximum depth, `produce` succeeds and marks `resTbl` done exactly once. -/
theorem produce_fixpoint (env : Env) (p : Producer) (k : Nat)
    (hne : p.resTbl.err = none)
    (hs : (computeSeedPart env p).2 = none)
    (hrec : env.hasRecursive = true)
    (hin : (computeSeedPart env p).1.iterInTbl.chunks.isEmpty = false)
    (hlim : limitDone (computeSeedPart env p).1
      (computeSeedPart env p).1.resTbl = false)
    (hrun : (runsToStopE k env (computeSeedPart env p).1).isSome = true)
    (hk : 1 + k ≤ env.maxDepth) :
    (produce env p).2 = none ∧
    (produce env p).1.resTbl.done = true ∧
    (produce env p).1.resTbl.doneCnt = p.resTbl.doneCnt + 1 := by
  have hc1 : (computeSeedPart env p).1.curIter = 1 :=
    computeSeedPart_ok_curIter env p hs
  have hsm := computeSeedPart_resTbl_meta env p
  have hd : ¬ env.maxDepth < (computeSeedPart env p).1.curIter := by omega
  rw [Option.isSome_iff_exists] at hrun
  obtain ⟨q, hq⟩ := hrun
  have hloop := recLoop_stops env k (computeSeedPart env p).1 q hq (by omega)
  have hrcr := computeRecursivePart_eq_loop env (computeSeedPart env p).1
    hrec hin hd hlim
  have h2 : (computeRecursivePart env (computeSeedPart env p).1).2 = none := by
    rw [hrcr, hloop]
  have hqm := runsToStopE_resTbl_meta _ env _ _ hq
  rw [produce_eq_ok env p hne hs h2]
  refine ⟨rfl, by simp, ?_⟩
  simp only [Storage.setDone_doneCnt]
  rw [hrcr, hloop]
  rw [hqm.2.2, hsm.2.2]

/-! ### Concrete evaluation fixtures (used by witnesses and
counterexamples) -/

/-- A freshly opened producer over empty tables. -/
def freshProducer (dist : Bool) (hasLim : Bool) (lb le : Nat) : Producer :=
  { opened := true, produced := false, closed := false, openErr := none,
    resTbl := Storage.new, iterInTbl := Storage.new, iterOutTbl := Storage.new,
    hashTbl := [], isDistinct := dist, curIter := 0, hasLimit := hasLim,
    limitBeg := lb, limitEnd := le, corColHashCodes := [],
    openCalls := 0, hashAllocs := 0 }

/-- The spec's example shape: seed row `[0]`, recursive step `x → x + 1`
while `x < bound`, DISTINCT hashing by parity (so distinct rows collide). -/
def stepEnv (bound depth : Nat) : Env :=
  { hasSeed := true, hasRecursive := true, seedOpenErr := none,
    recOpenErr := none,
    seedPulls := [Except.ok [[0]]],
    recFn := fun _ input =>
      let next := input.flatten.filterMap
        (fun r => match r with
          | [n] => if n < bound then some [n + 1] else none
          | _ => none)
      if next.isEmpty then [] else [Except.ok next],
    hash := fun r => r.sum % 2,
    maxDepth := depth }

/-! ### Claim theorems: termination, depth guard, strict depth check -/

/-- C1 (amended): for a recursive evaluation without sub-plan errors whose
rotation produces an empty iteration-input table (or satisfies the limit)
after `k` further iterations, with `1 + k` within the configured maximum
recursion depth, `produce` terminates successfully and `resTbl` is marked
done exactly once (`SetDone` call count rises by exactly one, after both
phases succeed). -/
theorem cte_fixpoint_done_once_within_depth (env : Env) (p : Producer)
    (k : Nat)
    (hne : p.resTbl.err = none)
    (hs : (computeSeedPart env p).2 = none)
    (hrec : env.hasRecursive = true)
    (hin : (computeSeedPart env p).1.iterInTbl.chunks.isEmpty = false)
    (hlim : limitDone (computeSeedPart env p).1
      (computeSeedPart env p).1.resTbl = false)
    (hrun : (runsToStopE k env (computeSeedPart env p).1).isSome = true)
    (hk : 1 + k ≤ env.maxDepth) :
    (produce env p).2 = none ∧
    (produce env p).1.resTbl.done = true ∧
    (produce env p).1.resTbl.doneCnt = p.resTbl.doneCnt + 1 :=
  produce_fixpoint env p k hne hs hrec hin hlim hrun hk

/-- C1 (counterexample to the claim as stated): with maximum depth 1 and a
recursive definition whose rotation does produce an empty iteration-input
table in the depth-free recursion (after 3 continuing iterations),
`produce` nevertheless fails with a depth error and `SetDone` is never
called, so "production terminates and `resTbl` is marked done exactly
once" is false without a depth-side condition. -/
theorem cte_fixpoint_claim_counterexample :
    (runsToStopE 3 (stepEnv 3 1)
      (computeSeedPart (stepEnv 3 1) (freshProducer true false 0 0)).1).isSome
      = true ∧
    (produce (stepEnv 3 1) (freshProducer true false 0 0)).2 =
      some (Err.depthExceeded 2) ∧
    (produce (stepEnv 3 1) (freshProducer true false 0 0)).1.resTbl.done
      = false ∧
    (produce (stepEnv 3 1) (freshProducer true false 0 0)).1.resTbl.doneCnt
      = 0 := by
  have h := produce_depth (stepEnv 3 1) (freshProducer true false 0 0)
    (by decide) (by decide) (by decide) (by decide) (by decide) (by decide)
  exact ⟨by decide, h.1, h.2.1, h.2.2⟩

theorem cte_fixpoint_done_once_witness :
    (produce (stepEnv 3 10) (freshProducer true false 0 0)).2 = none ∧
    (produce (stepEnv 3 10) (freshProducer true false 0 0)).1.resTbl.done
      = true ∧
    (produce (stepEnv 3 10) (freshProducer true false 0 0)).1.resTbl.doneCnt
      = 1 := by
  have h := cte_fixpoint_done_once_within_depth (stepEnv 3 10)
    (freshProducer true false 0 0) 3
    (by decide) (by decide) (by decide) (by decide) (by decide) (by decide)
    (by decide)
  exact ⟨h.1, h.2.1, h.2.2⟩

/-- C2: for every maximum-depth configuration, if the true fixpoint
requires more than `maxDepth` iterations (the depth-free recursion is
still continuing after `maxDepth` of them, with a non-empty iteration
input and the limit unsatisfied), `produce` fails with
`RecursionDepthExceeded` carrying the offending iteration count
`maxDepth + 1`, and `resTbl` is never marked done in that evaluation. -/
theorem cte_depth_guard (env : Env) (p : Producer)
    (hne : p.resTbl.err = none)
    (hs : (computeSeedPart env p).2 = none)
    (hrec : env.hasRecursive = true)
    (hin : (computeSeedPart env p).1.iterInTbl.chunks.isEmpty = false)
    (hlim : limitDone (computeSeedPart env p).1
      (computeSeedPart env p).1.resTbl = false)
    (hiter : (iterN env.maxDepth env (computeSeedPart env p).1).isSome
      = true) :
    (produce env p).2 = some (Err.depthExceeded (env.maxDepth + 1)) ∧
    (produce env p).1.resTbl.done = p.resTbl.done ∧
    (produce env p).1.resTbl.doneCnt = p.resTbl.doneCnt :=
  produce_depth env p hne hs hrec hin hlim hiter

theorem cte_depth_guard_witness :
    (produce (stepEnv 5 1) (freshProducer true false 0 0)).2 =
      some (Err.depthExceeded 2) ∧
    (produce (stepEnv 5 1) (freshProducer true false 0 0)).1.resTbl.done
      = false ∧
    (produce (stepEnv 5 1) (freshProducer true false 0 0)).1.resTbl.doneCnt
      = 0 := by
  have h := cte_depth_guard (stepEnv 5 1) (freshProducer true false 0 0)
    (by decide) (by decide) (by decide) (by decide) (by decide) (by decide)
  exact ⟨h.1, h.2.1, h.2.2⟩

/-- C10: the depth comparison is strict and only performed when another
iteration will actually run: a rotation that meets the limit or empties
the iteration input stops the loop with no error regardless of the
counter, and an evaluation whose fixpoint is reached with the counter
exactly at the maximum depth completes successfully. -/
theorem cte_depth_check_strict (env : Env) (p q : Producer) (k : Nat) :
    (oneCycle env p = IterStep.stop q →
      recLoop env p (env.recFn p.curIter p.iterInTbl.chunks) = (q, none)) ∧
    (env.hasRecursive = true → p.iterInTbl.chunks.isEmpty = false →
      limitDone p p.resTbl = false → runsToStopE k env p = some q →
      p.curIter + k = env.maxDepth →
      computeRecursivePart env p = (q, none)) := by
  constructor
  · exact oneCycle_stop_recLoop env p q
  · intro hrec hin hlim hrun hd
    have hdle : ¬ env.maxDepth < p.curIter := by omega
    rw [computeRecursivePart_eq_loop env p hrec hin hdle hlim]
    exact recLoop_stops env k p q hrun (by omega)

theorem cte_depth_check_strict_witness :
    (computeRecursivePart (stepEnv 3 4)
      (computeSeedPart (stepEnv 3 4) (freshProducer true false 0 0)).1).2
      = none := by
  obtain ⟨q, hq⟩ := Option.isSome_iff_exists.mp
    (by decide : (runsToStopE 3 (stepEnv 3 4)
      (computeSeedPart (stepEnv 3 4) (freshProducer true false 0 0)).1).isSome
      = true)
  have h := (cte_depth_check_strict (stepEnv 3 4)
    (computeSeedPart (stepEnv 3 4) (freshProducer true false 0 0)).1 q 3).2
    (by decide) (by decide) (by decide) hq (by decide)
  rw [h]

/-! ### Claim theorems: error latching, Next idempotence, sticky open,
correlated reset -/

/-- C6: every error returned by `produce` (seed phase, recursive phase, or
an already-latched error) is latched as `resTbl`'s sticky error before
`produce` returns it; a later `produce` call on a `resTbl` whose error is
already set short-circuits, returning the latched error with the whole
producer state unchanged (neither phase is re-run). -/
theorem cte_produce_error_latched (env : Env) (p : Producer) (e : Err) :
    ((produce env p).2 = some e → (produce env p).1.resTbl.err = some e) ∧
    (p.resTbl.err = some e → produce env p = (p, some e)) :=
  produce_err_latched env p e

/-- A producer whose `resTbl` carries a latched error. -/
def latchedProducer : Producer :=
  { freshProducer true false 0 0 with
    resTbl := { Storage.new with err := some (Err.subPlan 9) } }

theorem cte_produce_error_latched_witness :
    latchedProducer.resTbl.err = some (Err.subPlan 9) ∧
    (produce { stepEnv 3 10 with
        seedPulls := [Except.error (Err.subPlan 7)] }
      (freshProducer true false 0 0)).1.resTbl.err = some (Err.subPlan 7) ∧
    produce (stepEnv 3 10) latchedProducer =
      (latchedProducer, some (Err.subPlan 9)) := by
  refine ⟨rfl, ?_, ?_⟩
  · exact (cte_produce_error_latched
      { stepEnv 3 10 with seedPulls := [Except.error (Err.subPlan 7)] }
      (freshProducer true false 0 0) (Err.subPlan 7)).1 (by decide)
  · exact (cte_produce_error_latched (stepEnv 3 10) latchedProducer
      (Err.subPlan 9)).2 rfl

/-- C9: after a successful `produce`, `resTbl` is marked done; and when
`resTbl` is already done, the production step inside `CTEExec.Next` is a
no-op — the producer (hence `resTbl`, `iterInTbl` and `iterOutTbl`) is
returned unchanged and no error is reported. -/
theorem cte_next_noop_when_done (env : Env) (p : Producer) (c : Consumer) :
    ((produce env p).2 = none → (produce env p).1.resTbl.done = true) ∧
    (p.resTbl.done = true →
      (nextStep env p c).1 = p ∧ (nextStep env p c).2.2.2 = none) := by
  constructor
  · exact produce_ok_done env p
  · intro h
    constructor <;> simp [nextStep, h]

/-- A producer whose `resTbl` is already done with one stored batch. -/
def doneProducer : Producer :=
  { freshProducer false false 0 0 with
    resTbl := { Storage.new with done := true, chunks := [[[1]]] } }

theorem cte_next_noop_when_done_witness :
    doneProducer.resTbl.done = true ∧
    (nextStep (stepEnv 3 10) doneProducer consumerReset).1 = doneProducer ∧
    (nextStep (stepEnv 3 10) doneProducer consumerReset).2.2.2 = none := by
  have h := (cte_next_noop_when_done (stepEnv 3 10) doneProducer
    consumerReset).2 rfl
  exact ⟨rfl, h.1, h.2⟩

theorem checkAndUpdateCorCol_unchanged : ∀ (o n : List Nat),
    (checkAndUpdateCorCol o n).1 = false →
    (checkAndUpdateCorCol o n).2 = o := by
  intro o
  induction o with
  | nil => intro n _; cases n <;> rfl
  | cons a os ih =>
    intro n h
    cases n with
    | nil => rfl
    | cons b ns =>
      simp only [checkAndUpdateCorCol, Bool.or_eq_false_iff,
        decide_eq_false_iff_not, ne_eq, not_not] at h
      simp only [checkAndUpdateCorCol]
      rw [ih ns h.1, h.2]

/-- C7: if `openProducer` fails (for any reason, including a missing seed
sub-plan), it leaves `openErr` set to that error and `opened = false`; a
subsequent `Open` on a consumer sharing the producer, with unchanged
correlated-column fingerprints, returns the same latched `openErr` with
the producer state unchanged — in particular `openProducer` is not invoked
again (its ghost call counter is part of the unchanged state). -/
theorem cte_open_error_sticky (env : Env) (p : Producer) (c : Consumer)
    (newCodes : List Nat) (e : Err) :
    ((openProducer env p).2 = some e →
      (openProducer env p).1.openErr = some e ∧
      (openProducer env p).1.opened = false) ∧
    (p.openErr = some e →
      (checkAndUpdateCorCol p.corColHashCodes newCodes).1 = false →
      cteOpen env newCodes p c = (p, consumerReset, some e)) := by
  constructor
  · intro h
    refine ⟨h, ?_⟩
    have hop : (openProducer env p).1.opened = (openProducer env p).2.isNone :=
      rfl
    rw [hop, h]
    rfl
  · intro h hch
    have hcodes := checkAndUpdateCorCol_unchanged _ _ hch
    have hp1 : corColStep newCodes p = p := by
      simp [corColStep, hch, hcodes]
    simp [cteOpen, hp1, h]

/-- An environment with no seed sub-plan configured. -/
def noSeedEnv : Env := { stepEnv 3 10 with hasSeed := false }

/-- The producer state left by a failed `openProducer` (missing seed). -/
def failedOpenProducer : Producer :=
  (openProducer noSeedEnv (freshProducer true false 0 0)).1

theorem cte_open_error_sticky_witness :
    (openProducer noSeedEnv (freshProducer true false 0 0)).2 =
      some Err.seedNil ∧
    failedOpenProducer.openErr = some Err.seedNil ∧
    failedOpenProducer.opened = false ∧
    cteOpen noSeedEnv [] failedOpenProducer consumerReset =
      (failedOpenProducer, consumerReset, some Err.seedNil) := by
  have h1 := (cte_open_error_sticky noSeedEnv (freshProducer true false 0 0)
    consumerReset [] Err.seedNil).1 (by decide)
  have h2 := (cte_open_error_sticky noSeedEnv failedOpenProducer
    consumerReset [] Err.seedNil).2 (by decide) (by decide)
  exact ⟨by decide, h1.1, h1.2, h2⟩

/-- C8: on a consumer `Open`, a changed correlated-column fingerprint
forces a full reset before reopening — counter 0, all flags cleared, a
fresh hash index in DISTINCT mode, and `resTbl`/`iterInTbl` reopened with
contents cleared — while an unchanged fingerprint leaves the producer
exactly as it was (no reset, no hash-index rebuild, no reopen: the ghost
`reopens`/`hashAllocs` counters are part of the unchanged state). -/
theorem cte_correlated_reset (p : Producer) (newCodes : List Nat) :
    ((checkAndUpdateCorCol p.corColHashCodes newCodes).1 = true →
      (corColStep newCodes p).curIter = 0 ∧
      (corColStep newCodes p).opened = false ∧
      (corColStep newCodes p).produced = false ∧
      (corColStep newCodes p).closed = false ∧
      (corColStep newCodes p).openErr = none ∧
      (corColStep newCodes p).resTbl.chunks = [] ∧
      (corColStep newCodes p).resTbl.done = false ∧
      (corColStep newCodes p).resTbl.err = none ∧
      (corColStep newCodes p).resTbl.reopens = p.resTbl.reopens + 1 ∧
      (corColStep newCodes p).iterInTbl.chunks = [] ∧
      (corColStep newCodes p).iterInTbl.reopens = p.iterInTbl.reopens + 1 ∧
      (p.isDistinct = true →
        (corColStep newCodes p).hashTbl = [] ∧
        (corColStep newCodes p).hashAllocs = p.hashAllocs + 1)) ∧
    ((checkAndUpdateCorCol p.corColHashCodes newCodes).1 = false →
      corColStep newCodes p = p) := by
  constructor
  · intro h
    by_cases hd : p.isDistinct = true <;>
      simp [corColStep, h, reopenTbls, producerReset, hd]
  · intro h
    simp [corColStep, h, checkAndUpdateCorCol_unchanged _ _ h]

/-- A producer with one stored fingerprint and non-trivial table state. -/
def corColProducer : Producer :=
  { freshProducer true false 0 0 with
    corColHashCodes := [5]
    resTbl := { Storage.new with chunks := [[[1]]], done := true }
    iterInTbl := { Storage.new with chunks := [[[2]]] } }

theorem cte_correlated_reset_witness :
    (corColStep [6] corColProducer).curIter = 0 ∧
    (corColStep [6] corColProducer).resTbl.chunks = [] ∧
    (corColStep [6] corColProducer).resTbl.reopens = 1 ∧
    (corColStep [6] corColProducer).hashAllocs = 1 ∧
    corColStep [5] corColProducer = corColProducer := by
  have h1 := (cte_correlated_reset corColProducer [6]).1 (by decide)
  have h2 := (cte_correlated_reset corColProducer [5]).2 (by decide)
  exact ⟨h1.1, h1.2.2.2.2.2.1, h1.2.2.2.2.2.2.2.2.1,
    (h1.2.2.2.2.2.2.2.2.2.2.2 rfl).2, h2⟩

/-! ### Claim theorems: collision safety -/

/-- C4: a row is classified as duplicate only when some row reachable
through a matching hash bucket is additionally full-value-equal to it;
hash equality alone never drops a row — in particular, two distinct rows
with identical hashes inserted into an empty DISTINCT table both survive
`deduplicate`. -/
theorem cte_collision_safety (lookup : RowPtr → Option Row) (tbl : HashTbl)
    (key : Nat) (row r1 r2 : Row) (h : Row → Nat) :
    (checkHasDup lookup tbl key row = true →
      ∃ ptr ∈ htGet tbl key, lookup ptr = some row) ∧
    (r1 ≠ r2 → h r1 = h r2 →
      (deduplicate h [r1, r2] Storage.new []).1 = [r1, r2]) := by
  constructor
  · intro hdup
    simp only [checkHasDup, List.any_eq_true, decide_eq_true_eq] at hdup
    exact hdup
  · intro hne hh
    simp [deduplicate, stage2Kept, dedupStage2, dedupStage2Go, dedupStage3Go,
      checkHasDup, htGet, htPut, storageGetRow, Storage.new, hh, hne]

theorem cte_collision_safety_witness :
    (∃ ptr ∈ htGet [(5, ((0 : Nat), (0 : Nat)))] 5,
      (fun _ => some [7]) ptr = some ([7] : Row)) ∧
    (deduplicate (fun _ => 0) [[1], [2]] Storage.new []).1 = [[1], [2]] := by
  constructor
  · exact (cte_collision_safety (fun _ => some [7])
      [(5, ((0 : Nat), (0 : Nat)))] 5 [7] [1] [2] (fun _ => 0)).1 (by decide)
  · exact (cte_collision_safety (fun _ => some [7])
      [(5, ((0 : Nat), (0 : Nat)))] 5 [7] [1] [2] (fun _ => 0)).2
      (by decide) rfl

/-! ### Distinct-mode invariants and idempotence -/

/-- All rows stored in a storage, in order. -/
def storeRows (s : Storage) : List Row :=
  s.chunks.flatten

theorem storageGetRow_mem {s : Storage} {ptr : RowPtr} {r : Row}
    (h : storageGetRow s ptr = some r) : r ∈ storeRows s := by
  simp only [storageGetRow, Option.bind_eq_some] at h
  obtain ⟨c, hc, hr⟩ := h
  simp only [storeRows, List.mem_flatten]
  exact ⟨c, List.get?_mem hc, List.get?_mem hr⟩

theorem storeRows_add (s : Storage) (c : Chunk) :
    storeRows (s.add c) = storeRows s ++ c := by
  simp only [Storage.add, storeRows]
  split
  · next hc => simp [List.isEmpty_iff.mp hc]
  · simp

/-- Row resolution in `store` extended by a yet-unadded chunk `acc` at
index `NumChunks()`: the view the cross-chunk pass's fresh pointers will
have once the surviving chunk is added. -/
def extGetRow (store : Storage) (acc : List Row) (ptr : RowPtr) : Option Row :=
  if ptr.1 = store.chunks.length then acc.get? ptr.2
  else storageGetRow store ptr

theorem extGetRow_eq_getRow_add (store : Storage) (out : List Row)
    (ptr : RowPtr) :
    extGetRow store out ptr = storageGetRow (store.add out) ptr := by
  simp only [extGetRow, storageGetRow, Storage.add]
  by_cases hlen : ptr.1 = store.chunks.length
  · rw [if_pos hlen]
    split
    · next hout =>
      rw [List.isEmpty_iff.mp hout]
      rw [hlen]
      rw [List.get?_eq_none.mpr (le_refl _)]
      simp
    · rw [hlen, List.get?_concat_length]
      simp
  · rw [if_neg hlen]
    split
    · rfl
    · by_cases hlt : ptr.1 < store.chunks.length
      · rw [List.get?_append hlt]
      · have : store.chunks.length + 1 ≤ ptr.1 := by omega
        rw [List.get?_eq_none.mpr (by omega),
          List.get?_eq_none.mpr (by simpa using this)]

theorem extGetRow_mono {store : Storage} {acc : List Row} {ptr : RowPtr}
    {r : Row} (l : List Row) (h : extGetRow store acc ptr = some r) :
    extGetRow store (acc ++ l) ptr = some r := by
  simp only [extGetRow] at h ⊢
  split at h
  · next hc =>
    rw [if_pos hc]
    have hlt : ptr.2 < acc.length := (List.get?_eq_some.mp h).1
    rw [List.get?_append hlt]
    exact h
  · next hc =>
    rw [if_neg hc]
    exact h

theorem dedupStage2Go_spec (h : Row → Nat) (chk : List Row) :
    ∀ (rows : List Row) (i : Nat) (sel : List Nat) (tbl : HashTbl),
    chk.drop i = rows →
    tbl = sel.map (fun j => (h ((chk.get? j).getD []), ((0 : Nat), j))) →
    (∀ r, r ∈ sel.filterMap (fun j => chk.get? j) ↔ r ∈ chk.take i) →
    (sel.filterMap (fun j => chk.get? j)).Nodup →
    (∀ r, r ∈ (dedupStage2Go h chk rows i sel tbl).filterMap
        (fun j => chk.get? j) ↔ r ∈ chk.take i ++ rows) ∧
    ((dedupStage2Go h chk rows i sel tbl).filterMap
        (fun j => chk.get? j)).Nodup := by
  intro rows
  induction rows with
  | nil =>
    intro i sel tbl _ _ hmem hnd
    simp only [dedupStage2Go, List.append_nil]
    exact ⟨hmem, hnd⟩
  | cons r rs ih =>
    intro i sel tbl hdrop htbl hmem hnd
    have hget : chk.get? i = some r := by
      have hd := List.get?_drop chk i 0
      rw [hdrop] at hd
      simpa using hd.symm
    have hge : chk[i]? = some r := by
      rw [← List.get?_eq_getElem?]
      exact hget
    have hdrop' : chk.drop (i + 1) = rs := by
      have hdd : chk.drop (i + 1) = (chk.drop i).drop 1 := by
        rw [List.drop_drop]
      rw [hdd, hdrop]
      rfl
    have htake : chk.take (i + 1) = chk.take i ++ [r] := by
      rw [List.take_succ, hge]
      rfl
    have hbridge : checkHasDup (fun ptr => chk.get? ptr.2) tbl (h r) r = true ↔
        r ∈ sel.filterMap (fun j => chk.get? j) := by
      rw [checkHasDup_iff]
      constructor
      · rintro ⟨ptr, hmemtbl, hlookup⟩
        rw [htbl] at hmemtbl
        simp only [List.mem_map] at hmemtbl
        obtain ⟨j, hj, hje⟩ := hmemtbl
        rw [List.mem_filterMap]
        refine ⟨j, hj, ?_⟩
        have hptr : ptr = (0, j) := by
          have hsnd := congrArg Prod.snd hje
          simpa using hsnd.symm
        rw [hptr] at hlookup
        exact hlookup
      · intro hr
        rw [List.mem_filterMap] at hr
        obtain ⟨j, hj, hje⟩ := hr
        refine ⟨(0, j), ?_, hje⟩
        rw [htbl]
        simp only [List.mem_map]
        refine ⟨j, hj, ?_⟩
        rw [hje]
        rfl
    simp only [dedupStage2Go]
    by_cases hdup : checkHasDup (fun ptr => chk.get? ptr.2) tbl (h r) r = true
    · rw [if_pos hdup]
      have hrk : r ∈ chk.take i := (hmem r).mp (hbridge.mp hdup)
      have hmem' : ∀ x, x ∈ sel.filterMap (fun j => chk.get? j) ↔
          x ∈ chk.take (i + 1) := by
        intro x
        rw [htake, List.mem_append, List.mem_singleton, hmem x]
        constructor
        · intro hx; exact Or.inl hx
        · rintro (hx | rfl)
          · exact hx
          · exact hrk
      have hrec := ih (i + 1) sel tbl hdrop' htbl hmem' hnd
      refine ⟨?_, hrec.2⟩
      intro x
      rw [hrec.1 x, htake, List.mem_append, List.mem_append, List.mem_append,
        List.mem_singleton, List.mem_cons]
      constructor
      · rintro (hx | hx)
        · rcases hx with hx | rfl
          · exact Or.inl hx
          · exact Or.inr (Or.inl rfl)
        · exact Or.inr (Or.inr hx)
      · rintro (hx | hx)
        · exact Or.inl (Or.inl hx)
        · rcases hx with rfl | hx
          · exact Or.inl (Or.inr rfl)
          · exact Or.inr hx
    · rw [if_neg hdup]
      have hrnk : r ∉ sel.filterMap (fun j => chk.get? j) := by
        intro hc
        exact hdup (hbridge.mpr hc)
      have hfm : (sel ++ [i]).filterMap (fun j => chk.get? j) =
          sel.filterMap (fun j => chk.get? j) ++ [r] := by
        rw [List.filterMap_append]
        simp [hge, hget]
      have htbl' : htPut tbl (h r) (0, i) =
          (sel ++ [i]).map (fun j => (h ((chk.get? j).getD []), ((0 : Nat), j))) := by
        rw [htPut, htbl, List.map_append]
        simp [hge, hget]
      have hmem' : ∀ x, x ∈ (sel ++ [i]).filterMap (fun j => chk.get? j) ↔
          x ∈ chk.take (i + 1) := by
        intro x
        rw [hfm, htake, List.mem_append, List.mem_append, List.mem_singleton,
          hmem x]
      have hnd' : ((sel ++ [i]).filterMap (fun j => chk.get? j)).Nodup := by
        rw [hfm]
        simp only [List.nodup_append, List.nodup_singleton, true_and]
        refine ⟨hnd, ?_⟩
        intro x hx
        simp only [List.mem_singleton]
        intro hxr
        subst hxr
        exact hrnk hx
      have hrec := ih (i + 1) (sel ++ [i]) (htPut tbl (h r) (0, i))
        hdrop' htbl' hmem' hnd'
      refine ⟨?_, hrec.2⟩
      intro x
      rw [hrec.1 x, htake, List.mem_append, List.mem_append, List.mem_append,
        List.mem_singleton, List.mem_cons]
      constructor
      · rintro (hx | hx)
        · rcases hx with hx | rfl
          · exact Or.inl hx
          · exact Or.inr (Or.inl rfl)
        · exact Or.inr (Or.inr hx)
      · rintro (hx | hx)
        · exact Or.inl (Or.inl hx)
        · rcases hx with rfl | hx
          · exact Or.inl (Or.inr rfl)
          · exact Or.inr hx

/-- The intra-chunk pass keeps exactly the distinct row values of a chunk:
value-membership is preserved and the surviving rows contain no
duplicates. -/
theorem stage2Kept_spec (h : Row → Nat) (chk : List Row) :
    (∀ r, r ∈ stage2Kept h chk ↔ r ∈ chk) ∧ (stage2Kept h chk).Nodup := by
  have hgo := dedupStage2Go_spec h chk chk 0 [] []
    (by simp) (by simp) (by simp) (by simp)
  simp only [stage2Kept, dedupStage2]
  simpa using hgo

theorem extGetRow_of_getRow {store : Storage} {ptr : RowPtr} {r : Row}
    (acc : List Row) (h : storageGetRow store ptr = some r) :
    extGetRow store acc ptr = some r := by
  simp only [extGetRow]
  have hlt : ptr.1 < store.chunks.length := by
    simp only [storageGetRow, Option.bind_eq_some] at h
    obtain ⟨c, hc, _⟩ := h
    exact List.get?_eq_some.mp hc |>.1
  rw [if_neg (by omega)]
  exact h

theorem dedupStage3Go_allDup (h : Row → Nat) (store : Storage) :
    ∀ (rows acc : List Row) (tbl : HashTbl),
    (∀ r ∈ rows,
      checkHasDup (fun ptr => storageGetRow store ptr) tbl (h r) r = true) →
    dedupStage3Go h store rows acc tbl = (acc, tbl) := by
  intro rows
  induction rows with
  | nil => intro acc tbl _; rfl
  | cons r rs ih =>
    intro acc tbl hall
    simp only [dedupStage3Go]
    rw [if_pos (hall r (List.mem_cons_self r rs))]
    exact ih acc tbl (fun x hx => hall x (List.mem_cons_of_mem r hx))

theorem dedupStage3Go_spec (h : Row → Nat) (store : Storage) :
    ∀ (rows acc : List Row) (tbl : HashTbl),
    (∀ e ∈ tbl, ∃ r, extGetRow store acc e.2 = some r ∧ h r = e.1) →
    (∀ r, r ∈ storeRows store ++ acc →
      ∃ ptr, (h r, ptr) ∈ tbl ∧ extGetRow store acc ptr = some r) →
    (∃ t, (dedupStage3Go h store rows acc tbl).1 = acc ++ t) ∧
    (∀ r ∈ (dedupStage3Go h store rows acc tbl).1, r ∈ acc ∨ r ∈ rows) ∧
    (∀ r ∈ rows,
      r ∈ (dedupStage3Go h store rows acc tbl).1 ∨ r ∈ storeRows store) ∧
    (∀ e ∈ (dedupStage3Go h store rows acc tbl).2, ∃ r,
      extGetRow store (dedupStage3Go h store rows acc tbl).1 e.2 = some r ∧
      h r = e.1) ∧
    (∀ r, r ∈ storeRows store ++ (dedupStage3Go h store rows acc tbl).1 →
      ∃ ptr, (h r, ptr) ∈ (dedupStage3Go h store rows acc tbl).2 ∧
        extGetRow store (dedupStage3Go h store rows acc tbl).1 ptr = some r) := by
  intro rows
  induction rows with
  | nil =>
    intro acc tbl hA hB
    simp only [dedupStage3Go]
    exact ⟨⟨[], by simp⟩, fun r hr => Or.inl hr, fun r hr => absurd hr
      (List.not_mem_nil r), hA, hB⟩
  | cons r rs ih =>
    intro acc tbl hA hB
    simp only [dedupStage3Go]
    by_cases hdup :
        checkHasDup (fun ptr => storageGetRow store ptr) tbl (h r) r = true
    · rw [if_pos hdup]
      have hrst : r ∈ storeRows store := by
        rw [checkHasDup_iff] at hdup
        obtain ⟨ptr, _, hl⟩ := hdup
        exact storageGetRow_mem hl
      obtain ⟨h1, h2, h3, h4, h5⟩ := ih acc tbl hA hB
      refine ⟨h1, fun x hx => (h2 x hx).imp id (List.mem_cons_of_mem r),
        ?_, h4, h5⟩
      intro x hx
      rcases List.mem_cons.mp hx with rfl | hx
      · exact Or.inr hrst
      · exact h3 x hx
    · rw [if_neg hdup]
      have hA' : ∀ e ∈ htPut tbl (h r) (store.chunks.length, acc.length),
          ∃ x, extGetRow store (acc ++ [r]) e.2 = some x ∧ h x = e.1 := by
        intro e he
        rw [htPut, List.mem_append] at he
        rcases he with he | he
        · obtain ⟨x, hx, hhx⟩ := hA e he
          exact ⟨x, extGetRow_mono [r] hx, hhx⟩
        · rw [List.mem_singleton] at he
          subst he
          refine ⟨r, ?_, rfl⟩
          simp [extGetRow, List.get?_concat_length]
      have hB' : ∀ x, x ∈ storeRows store ++ (acc ++ [r]) →
          ∃ ptr, (h x, ptr) ∈ htPut tbl (h r) (store.chunks.length, acc.length) ∧
            extGetRow store (acc ++ [r]) ptr = some x := by
        intro x hx
        rw [← List.append_assoc, List.mem_append, List.mem_singleton] at hx
        rcases hx with hx | rfl
        · obtain ⟨ptr, hp, hres⟩ := hB x hx
          exact ⟨ptr, by rw [htPut]; exact List.mem_append_left _ hp,
            extGetRow_mono [r] hres⟩
        · refine ⟨(store.chunks.length, acc.length), ?_, ?_⟩
          · rw [htPut]
            exact List.mem_append_right _ (List.mem_singleton.mpr rfl)
          · simp [extGetRow, List.get?_concat_length]
      obtain ⟨h1, h2, h3, h4, h5⟩ := ih (acc ++ [r])
        (htPut tbl (h r) (store.chunks.length, acc.length)) hA' hB'
      obtain ⟨t, ht⟩ := h1
      refine ⟨⟨[r] ++ t, by rw [ht, List.append_assoc]⟩, ?_, ?_, h4, h5⟩
      · intro x hx
        rcases h2 x hx with hx' | hx'
        · rcases List.mem_append.mp hx' with hx'' | hx''
          · exact Or.inl hx''
          · exact Or.inr (List.mem_cons.mpr (Or.inl (List.mem_singleton.mp hx'')))
        · exact Or.inr (List.mem_cons_of_mem r hx')
      · intro x hx
        rcases List.mem_cons.mp hx with rfl | hx'
        · left
          rw [ht]
          exact List.mem_append_left t (List.mem_append_right acc
            (List.mem_singleton.mpr rfl))
        · exact h3 x hx'

/-- The invariant tying a DISTINCT table to its persistent hash index:
every stored pointer resolves to a row hashing to its key (soundness), and
every stored row is reachable through its own hash bucket (completeness).
It holds initially (empty table, empty index) and is preserved by
`tryDedupAndAdd`. -/
def dedupInv (h : Row → Nat) (store : Storage) (tbl : HashTbl) : Prop :=
  (∀ e ∈ tbl, ∃ r, storageGetRow store e.2 = some r ∧ h r = e.1) ∧
  (∀ r, r ∈ storeRows store →
    ∃ ptr, (h r, ptr) ∈ tbl ∧ storageGetRow store ptr = some r)

theorem tryDedupAndAdd_distinct_spec (h : Row → Nat) (c : Chunk)
    (store : Storage) (tbl : HashTbl) (hinv : dedupInv h store tbl) :
    dedupInv h (tryDedupAndAddG true h c store tbl).2.1
      (tryDedupAndAddG true h c store tbl).2.2 ∧
    (∀ x ∈ c, x ∈ storeRows (tryDedupAndAddG true h c store tbl).2.1) ∧
    (tryDedupAndAddG true h c store tbl).2.1.numRows =
      store.numRows + (tryDedupAndAddG true h c store tbl).1.length := by
  obtain ⟨hA0, hB0⟩ := hinv
  simp only [tryDedupAndAddG, if_pos]
  by_cases hc : c.isEmpty
  · have hcc : c = [] := List.isEmpty_iff.mp hc
    subst hcc
    simp only [deduplicate, List.isEmpty_nil, if_true]
    refine ⟨⟨?_, ?_⟩, ?_, ?_⟩
    · intro e he
      obtain ⟨r, hr, hh⟩ := hA0 e he
      exact ⟨r, by rw [← extGetRow_eq_getRow_add]; exact extGetRow_of_getRow [] hr, hh⟩
    · intro r hr
      rw [storeRows_add, List.append_nil] at hr
      obtain ⟨ptr, hp, hres⟩ := hB0 r hr
      exact ⟨ptr, hp, by rw [← extGetRow_eq_getRow_add]; exact extGetRow_of_getRow [] hres⟩
    · intro x hx
      exact absurd hx (List.not_mem_nil x)
    · simp
  · rw [deduplicate, if_neg hc]
    have hA1 : ∀ e ∈ tbl, ∃ r, extGetRow store [] e.2 = some r ∧ h r = e.1 := by
      intro e he
      obtain ⟨r, hr, hh⟩ := hA0 e he
      exact ⟨r, extGetRow_of_getRow [] hr, hh⟩
    have hB1 : ∀ r, r ∈ storeRows store ++ [] →
        ∃ ptr, (h r, ptr) ∈ tbl ∧ extGetRow store [] ptr = some r := by
      intro r hr
      rw [List.append_nil] at hr
      obtain ⟨ptr, hp, hres⟩ := hB0 r hr
      exact ⟨ptr, hp, extGetRow_of_getRow [] hres⟩
    obtain ⟨h1, h2, h3, h4, h5⟩ :=
      dedupStage3Go_spec h store (stage2Kept h c) [] tbl hA1 hB1
    have hs2 := stage2Kept_spec h c
    refine ⟨⟨?_, ?_⟩, ?_, ?_⟩
    · intro e he
      obtain ⟨r, hr, hh⟩ := h4 e he
      exact ⟨r, by rw [← extGetRow_eq_getRow_add]; exact hr, hh⟩
    · intro r hr
      rw [storeRows_add] at hr
      obtain ⟨ptr, hp, hres⟩ := h5 r (by simpa using hr)
      exact ⟨ptr, hp, by rw [← extGetRow_eq_getRow_add]; exact hres⟩
    · intro x hx
      have hx2 : x ∈ stage2Kept h c := (hs2.1 x).mpr hx
      rw [storeRows_add, List.mem_append]
      rcases h3 x hx2 with hs | hs
      · exact Or.inr hs
      · exact Or.inl hs
    · simp

/-- C3: inserting the same row multiset a second time into a DISTINCT
table (whose hash index satisfies the table/index invariant, e.g. because
the table was filled through `tryDedupAndAdd`) leaves the row count
unchanged relative to the single insertion; and duplicates within a single
incoming chunk are collapsed to exactly one surviving row by the
intra-chunk filtering pass. -/
theorem cte_distinct_idempotent (h : Row → Nat) (c c2 : Chunk)
    (store : Storage) (tbl : HashTbl)
    (hinv : dedupInv h store tbl) (hperm : c2.Perm c) :
    (tryDedupAndAddG true h c2 (tryDedupAndAddG true h c store tbl).2.1
       (tryDedupAndAddG true h c store tbl).2.2).2.1.numRows =
      (tryDedupAndAddG true h c store tbl).2.1.numRows ∧
    (∀ r ∈ c, (stage2Kept h c).count r = 1) := by
  obtain ⟨hinv1, hsub, _⟩ := tryDedupAndAdd_distinct_spec h c store tbl hinv
  constructor
  · set s1 := (tryDedupAndAddG true h c store tbl).2.1 with hs1
    set t1 := (tryDedupAndAddG true h c store tbl).2.2 with ht1
    have hall : ∀ r ∈ stage2Kept h c2,
        checkHasDup (fun ptr => storageGetRow s1 ptr) t1 (h r) r = true := by
      intro r hr
      have hrc2 : r ∈ c2 := ((stage2Kept_spec h c2).1 r).mp hr
      have hrc : r ∈ c := hperm.mem_iff.mp hrc2
      have hrs : r ∈ storeRows s1 := hsub r hrc
      obtain ⟨ptr, hp, hres⟩ := hinv1.2 r hrs
      rw [checkHasDup_iff]
      exact ⟨ptr, hp, hres⟩
    simp only [tryDedupAndAddG, if_pos]
    by_cases hc2 : c2.isEmpty
    · rw [deduplicate, if_pos hc2]
      simp [List.isEmpty_iff.mp hc2]
    · rw [deduplicate, if_neg hc2]
      rw [dedupStage3Go_allDup h s1 (stage2Kept h c2) [] t1 hall]
      simp
  · intro r hr
    have hs2 := stage2Kept_spec h c
    have hcnt := List.count_eq_one_of_mem hs2.2 ((hs2.1 r).mpr hr)
    have hconv : ∀ (l : List Row),
        l.count r = @List.count Row instBEqOfDecidableEq r l := by
      intro l
      induction l with
      | nil => rfl
      | cons b bs ih =>
        by_cases hbr : b = r
        · subst hbr
          simp [List.count_cons, ih]
        · simp [List.count_cons, ih, hbr]
    rw [hconv]
    exact hcnt

theorem cte_distinct_idempotent_witness :
    (tryDedupAndAddG true (fun _ => 0) [[2], [1], [1]]
       (tryDedupAndAddG true (fun _ => 0) [[1], [1], [2]]
         Storage.new []).2.1
       (tryDedupAndAddG true (fun _ => 0) [[1], [1], [2]]
         Storage.new []).2.2).2.1.numRows =
      (tryDedupAndAddG true (fun _ => 0) [[1], [1], [2]]
        Storage.new []).2.1.numRows ∧
    (stage2Kept (fun _ => 0) [[1], [1], [2]]).count [1] = 1 := by
  have h := cte_distinct_idempotent (fun _ => 0) [[1], [1], [2]]
    [[2], [1], [1]] Storage.new []
    (by constructor <;> simp [storeRows, Storage.new]) (by decide)
  exact ⟨h.1, h.2 [1] (by decide)⟩

/-! ### Limit-aware retrieval -/

/-- The rows a consumer in state `c` is still owed: the whole remaining
suffix capped at `limitEnd` once the first qualifying batch was found, and
the global slice `[limitBeg, limitEnd)` restricted to the unread suffix
before that. -/
def expectedOut (B E : Nat) (chunks : List Chunk) (c : Consumer) : List Row :=
  if c.meetFirstBatch then
    ((chunks.drop c.chkIdx).flatten).take (E - c.cursor)
  else
    (((chunks.drop c.chkIdx).flatten).drop (B - c.cursor)).take (E - B)

theorem ncl2_step (E : Nat) (rest : List Chunk) (cur : Nat) :
    (rest.flatten).take (E - cur) =
      (ncl2 E rest cur).2 ++
        ((rest.drop (ncl2 E rest cur).1.1).flatten).take
          (E - (ncl2 E rest cur).1.2) ∧
    ((ncl2 E rest cur).1.1 = 0 → (ncl2 E rest cur).1.2 = cur ∧
      (ncl2 E rest cur).2 = [] ∧ (rest.flatten).take (E - cur) = []) ∧
    (ncl2 E rest cur).1.1 ≤ 1 := by
  match rest with
  | [] => simp [ncl2]
  | a :: rs =>
    simp only [ncl2]
    by_cases hcur : cur < E
    · rw [if_pos hcur]
      by_cases htr : E < cur + a.length
      · rw [if_pos htr]
        refine ⟨?_, fun h => absurd h one_ne_zero, by norm_num⟩
        simp only [List.drop_succ_cons, List.drop_zero]
        rw [Nat.sub_self]
        simp only [List.take_zero, List.append_nil]
        rw [List.flatten_cons, List.take_append_eq_append_take]
        have h0 : E - cur - a.length = 0 := by omega
        rw [h0]
        simp
      · rw [if_neg htr]
        refine ⟨?_, fun h => absurd h one_ne_zero, by norm_num⟩
        simp only [List.drop_succ_cons, List.drop_zero]
        rw [List.flatten_cons, List.take_append_eq_append_take,
          List.take_of_length_le (by omega)]
        have h0 : E - cur - a.length = E - (cur + a.length) := by omega
        rw [h0]
    · rw [if_neg hcur]
      have h0 : E - cur = 0 := by omega
      refine ⟨?_, ?_, by norm_num⟩
      · rw [h0]; simp
      · intro _
        rw [h0]
        simp

theorem ncl1Go_spec (B E : Nat) (hBE : B ≤ E) :
    ∀ (rest : List Chunk) (cur : Nat), cur ≤ B →
    ((ncl1Go B E rest cur).1.2.2 = false →
      (ncl1Go B E rest cur).2 = none ∧
      (ncl1Go B E rest cur).1.1 = rest.length ∧
      (ncl1Go B E rest cur).1.2.1 ≤ B ∧
      ((rest.flatten).drop (B - cur)).take (E - B) = []) ∧
    ((ncl1Go B E rest cur).1.2.2 = true →
      1 ≤ (ncl1Go B E rest cur).1.1 ∧
      (ncl1Go B E rest cur).1.1 ≤ rest.length ∧
      ((rest.flatten).drop (B - cur)).take (E - B) =
        ((ncl1Go B E rest cur).2.getD []) ++
          ((rest.drop (ncl1Go B E rest cur).1.1).flatten).take
            (E - (ncl1Go B E rest cur).1.2.1)) := by
  intro rest
  induction rest with
  | nil =>
    intro cur hcur
    refine ⟨fun _ => ⟨rfl, rfl, hcur, ?_⟩, fun ht => by simp [ncl1Go] at ht⟩
    simp
  | cons a rs ih =>
    intro cur hcur
    simp only [ncl1Go]
    by_cases hq : B ≤ cur + a.length
    · rw [if_pos hq]
      by_cases hbe : B - cur = (if E < cur + a.length then E - cur else a.length)
      · rw [if_pos hbe]
        refine ⟨?_, ?_⟩
        · intro hf
          simp at hf
        · intro _
          refine ⟨le_refl 1, by simp, ?_⟩
          simp only [Option.getD_none, List.nil_append, List.drop_succ_cons,
            List.drop_zero]
          by_cases htr : E < cur + a.length
          · rw [if_pos htr] at hbe ⊢
            have h1 : E - B = 0 := by omega
            have h2 : E - (cur + (E - cur)) = 0 := by omega
            rw [h1, h2]
            simp
          · rw [if_neg htr] at hbe ⊢
            rw [List.flatten_cons, List.drop_append_eq_append_drop,
              List.drop_eq_nil_of_le (le_of_eq hbe.symm)]
            have hd2 : B - cur - a.length = 0 := by omega
            have hc2 : E - (cur + a.length) = E - B := by omega
            rw [hd2, hc2]
            simp
      · rw [if_neg hbe]
        refine ⟨?_, ?_⟩
        · intro hf
          simp at hf
        · intro _
          refine ⟨le_refl 1, by simp, ?_⟩
          simp only [Option.getD_some, List.drop_succ_cons, List.drop_zero]
          by_cases htr : E < cur + a.length
          · rw [if_pos htr] at hbe ⊢
            have h2 : E - (cur + (E - cur)) = 0 := by omega
            rw [h2]
            simp only [List.take_zero, List.append_nil]
            rw [List.flatten_cons, List.drop_append_eq_append_drop]
            have hd2 : B - cur - a.length = 0 := by omega
            rw [hd2, List.drop_zero, List.take_append_eq_append_take]
            have h3 : E - B - (a.drop (B - cur)).length = 0 := by
              rw [List.length_drop]
              omega
            have h4 : E - cur - (B - cur) = E - B := by omega
            rw [h3, h4]
            simp
          · rw [if_neg htr] at hbe ⊢
            rw [List.flatten_cons, List.drop_append_eq_append_drop]
            have hd2 : B - cur - a.length = 0 := by omega
            rw [hd2, List.drop_zero, List.take_append_eq_append_take]
            rw [List.take_of_length_le (by rw [List.length_drop]; omega)]
            congr 1
            · rw [List.take_of_length_le (by simp)]
            · congr 1
              rw [List.length_drop]
              omega
    · rw [if_neg hq]
      have hcur' : cur + a.length ≤ B := by omega
      have ihr := ih (cur + a.length) hcur'
      rcases hR : ncl1Go B E rs (cur + a.length) with ⟨⟨n1, cur1, meet1⟩, out1⟩
      rw [hR] at ihr
      simp only [hR]
      have htrans : (((a :: rs).flatten).drop (B - cur)).take (E - B) =
          (((rs.flatten).drop (B - (cur + a.length)))).take (E - B) := by
        rw [List.flatten_cons, List.drop_append_eq_append_drop,
          List.drop_eq_nil_of_le (by omega)]
        have hd : B - cur - a.length = B - (cur + a.length) := by omega
        rw [hd]
        simp
      refine ⟨?_, ?_⟩
      · intro hf
        obtain ⟨hn, hl, hc, he⟩ := ihr.1 (show meet1 = false from hf)
        have hn' : out1 = none := hn
        have hl' : n1 = rs.length := hl
        have hc' : cur1 ≤ B := hc
        refine ⟨hn', ?_, hc', ?_⟩
        · show n1 + 1 = (a :: rs).length
          simp [hl']
        · rw [htrans]
          exact he
      · intro ht
        obtain ⟨h1, h2, h3⟩ := ihr.2 (show meet1 = true from ht)
        have h1' : 1 ≤ n1 := h1
        have h2' : n1 ≤ rs.length := h2
        refine ⟨?_, ?_, ?_⟩
        · show 1 ≤ n1 + 1
          omega
        · show n1 + 1 ≤ (a :: rs).length
          simp only [List.length_cons]
          omega
        · show (((a :: rs).flatten).drop (B - cur)).take (E - B) =
            out1.getD [] ++ (((a :: rs).drop (n1 + 1)).flatten).take (E - cur1)
          rw [htrans, List.drop_succ_cons]
          exact h3

theorem nextChunkLimit_step (B E : Nat) (chunks : List Chunk) (c : Consumer)
    (hBE : B ≤ E) (hcur : c.meetFirstBatch = false → c.cursor ≤ B) :
    ((nextChunkLimit B E chunks c).1.meetFirstBatch = false →
      (nextChunkLimit B E chunks c).1.cursor ≤ B) ∧
    expectedOut B E chunks c =
      (nextChunkLimit B E chunks c).2 ++
        expectedOut B E chunks (nextChunkLimit B E chunks c).1 ∧
    (c.chkIdx < (nextChunkLimit B E chunks c).1.chkIdx ∨
      ((nextChunkLimit B E chunks c).1 = c ∧
        expectedOut B E chunks c = [])) := by
  obtain ⟨k, cur0, meet0⟩ := c
  have hdc : ∀ j, chunks.drop (k + j) = (chunks.drop k).drop j := by
    intro j
    rw [List.drop_drop]
  cases meet0 with
  | true =>
    rcases hN : ncl2 E (chunks.drop k) cur0 with ⟨⟨m, cur2⟩, rows⟩
    have hstep := ncl2_step E (chunks.drop k) cur0
    rw [hN] at hstep
    have hs1 : ((chunks.drop k).flatten).take (E - cur0) =
        rows ++ (((chunks.drop k).drop m).flatten).take (E - cur2) := hstep.1
    have hs2 : m = 0 → cur2 = cur0 ∧ rows = [] ∧
        ((chunks.drop k).flatten).take (E - cur0) = [] := by
      intro hm
      exact hstep.2.1 hm
    have hs3 : m ≤ 1 := hstep.2.2
    have hres : nextChunkLimit B E chunks ⟨k, cur0, true⟩ =
        (⟨k + m, cur2, true⟩, rows) := by
      simp only [nextChunkLimit, if_pos, hN]
    rw [hres]
    refine ⟨fun hf => by simp at hf, ?_, ?_⟩
    · simp only [expectedOut, if_pos]
      rw [hdc m]
      exact hs1
    · rcases Nat.eq_zero_or_pos m with hm | hm
      · right
        obtain ⟨hc2, hrw, hexp⟩ := hs2 hm
        subst hm hc2
        refine ⟨by simp, ?_⟩
        simp only [expectedOut, if_pos]
        exact hexp
      · left
        simp only
        omega
  | false =>
    have hcur0 : cur0 ≤ B := hcur rfl
    rcases hG : ncl1Go B E (chunks.drop k) cur0 with ⟨⟨n, cur1, meet1⟩, out⟩
    have hspec := ncl1Go_spec B E hBE (chunks.drop k) cur0 hcur0
    rw [hG] at hspec
    cases meet1 with
    | false =>
      have hfa := hspec.1 rfl
      have hout : out = none := hfa.1
      have hn : n = (chunks.drop k).length := hfa.2.1
      have hcur1 : cur1 ≤ B := hfa.2.2.1
      have hexp : (((chunks.drop k).flatten).drop (B - cur0)).take (E - B)
          = [] := hfa.2.2.2
      subst hout
      have hrest2 : (chunks.drop k).drop n = [] := by
        rw [hn, List.drop_length]
      have hres : nextChunkLimit B E chunks ⟨k, cur0, false⟩ =
          (⟨k + n + 0, cur1, false⟩, []) := by
        simp only [nextChunkLimit, if_neg, Bool.false_eq_true,
          not_false_eq_true, hG, hrest2, ncl2]
      rw [hres]
      refine ⟨fun _ => hcur1, ?_, ?_⟩
      · simp only [expectedOut, if_neg, Bool.false_eq_true, not_false_eq_true,
          if_false]
        rw [hexp]
        rw [Nat.add_zero, hdc n, hrest2]
        simp
      · rcases Nat.eq_zero_or_pos n with hm | hm
        · right
          have hcc : cur1 = cur0 ∧ n = 0 := by
            have : chunks.drop k = [] := by
              have := hn
              rw [hm] at this
              exact (List.length_eq_zero.mp this.symm)
            rw [this] at hG
            simp only [ncl1Go] at hG
            cases hG
            exact ⟨rfl, rfl⟩
          obtain ⟨hc1, _⟩ := hcc
          subst hc1 hm
          refine ⟨by simp, ?_⟩
          simp only [expectedOut, if_neg, Bool.false_eq_true,
            not_false_eq_true, if_false]
          exact hexp
        · left
          simp only
          omega
    | true =>
      have htr := hspec.2 rfl
      have hn1 : 1 ≤ n := htr.1
      have hexp : (((chunks.drop k).flatten).drop (B - cur0)).take (E - B) =
          out.getD [] ++ (((chunks.drop k).drop n).flatten).take (E - cur1) :=
        htr.2.2
      cases out with
      | some rows =>
        have hres : nextChunkLimit B E chunks ⟨k, cur0, false⟩ =
            (⟨k + n, cur1, true⟩, rows) := by
          simp only [nextChunkLimit, if_neg, Bool.false_eq_true,
            not_false_eq_true, hG]
        rw [hres]
        refine ⟨fun hf => by simp at hf, ?_, ?_⟩
        · simp only [expectedOut, if_neg, Bool.false_eq_true,
            not_false_eq_true, if_false, if_pos]
          rw [hexp, hdc n]
          rfl
        · left
          simp only
          omega
      | none =>
        rcases hN : ncl2 E ((chunks.drop k).drop n) cur1 with ⟨⟨m, cur2⟩, rows⟩
        have hstep := ncl2_step E ((chunks.drop k).drop n) cur1
        rw [hN] at hstep
        have hres : nextChunkLimit B E chunks ⟨k, cur0, false⟩ =
            (⟨k + n + m, cur2, true⟩, rows) := by
          simp only [nextChunkLimit, if_neg, Bool.false_eq_true,
            not_false_eq_true, hG, hN]
        rw [hres]
        refine ⟨fun hf => by simp at hf, ?_, ?_⟩
        · simp only [expectedOut, if_neg, Bool.false_eq_true,
            not_false_eq_true, if_false, if_pos]
          rw [hexp, hstep.1]
          simp only [Option.getD_none, List.nil_append]
          have : chunks.drop (k + n + m) =
              (((chunks.drop k).drop n).drop m) := by
            rw [List.drop_drop, List.drop_drop]
            congr 1
            omega
          rw [this]
        · left
          simp only
          omega

theorem emitCalls_stuck (B E : Nat) (chunks : List Chunk) (c : Consumer)
    (h : nextChunkLimit B E chunks c = (c, [])) :
    ∀ n, emitCalls B E chunks n c = [] := by
  intro n
  induction n with
  | zero => rfl
  | succ n ih =>
    show (nextChunkLimit B E chunks c).2 ++
      emitCalls B E chunks n (nextChunkLimit B E chunks c).1 = []
    rw [h]
    simpa using ih

theorem expectedOut_past_end (B E : Nat) (chunks : List Chunk) (c : Consumer)
    (h : chunks.length ≤ c.chkIdx) : expectedOut B E chunks c = [] := by
  have hnil : chunks.drop c.chkIdx = [] := List.drop_eq_nil_of_le h
  cases hm : c.meetFirstBatch <;> simp [expectedOut, hm, hnil]

theorem emitCalls_spec (B E : Nat) (hBE : B ≤ E) (chunks : List Chunk) :
    ∀ (n : Nat) (c : Consumer), (c.meetFirstBatch = false → c.cursor ≤ B) →
      chunks.length + 1 ≤ n + c.chkIdx →
      emitCalls B E chunks n c = expectedOut B E chunks c := by
  intro n
  induction n with
  | zero =>
    intro c hc hn
    rw [expectedOut_past_end B E chunks c (by omega)]
    rfl
  | succ n ih =>
    intro c hc hn
    obtain ⟨hinv, heq, hprog⟩ := nextChunkLimit_step B E chunks c hBE hc
    show (nextChunkLimit B E chunks c).2 ++
      emitCalls B E chunks n (nextChunkLimit B E chunks c).1 =
        expectedOut B E chunks c
    rcases hprog with hlt | ⟨hfix, hnil⟩
    · rw [ih (nextChunkLimit B E chunks c).1 hinv (by omega), ← heq]
    · rw [hfix, hnil] at heq
      have hout : (nextChunkLimit B E chunks c).2 = [] := by
        simpa using heq.symm
      have hstuck : nextChunkLimit B E chunks c = (c, []) :=
        Prod.ext hfix hout
      rw [hout, hfix, emitCalls_stuck B E chunks c hstuck n, hnil]
      rfl

theorem ncl2_past_end (B E : Nat) (chunks : List Chunk) (c : Consumer)
    (hm : c.meetFirstBatch = true) (hE : E ≤ c.cursor) :
    nextChunkLimit B E chunks c = (c, []) := by
  obtain ⟨k, cur, meet⟩ := c
  simp only at hm hE
  subst hm
  simp only [nextChunkLimit, if_pos]
  cases hr : chunks.drop k with
  | nil => simp [ncl2]
  | cons a as =>
    have hlt : ¬ cur < E := by omega
    simp [ncl2, hlt]

theorem ncl1Go_emit_gt (B E : Nat) (hBE : B ≤ E) :
    ∀ (rest : List Chunk) (cur k cur1 : Nat) (meet1 : Bool) (rows : List Row),
      cur ≤ B → ncl1Go B E rest cur = ((k, cur1, meet1), some rows) →
      B < cur1 := by
  intro rest
  induction rest with
  | nil =>
    intro cur k cur1 meet1 rows _ h
    simp [ncl1Go] at h
  | cons a as ih =>
    intro cur k cur1 meet1 rows hcur h
    simp only [ncl1Go] at h
    by_cases hq : B ≤ cur + a.length
    · rw [if_pos hq] at h
      by_cases hbe : B - cur = (if E < cur + a.length then E - cur else a.length)
      · rw [if_pos hbe] at h
        simp at h
      · rw [if_neg hbe] at h
        have hc1 : cur + (if E < cur + a.length then E - cur else a.length)
            = cur1 := by
          have := congrArg (fun x => x.1.2.1) h
          simpa using this
        by_cases hEc : E < cur + a.length
        · rw [if_pos hEc] at hc1 hbe
          omega
        · rw [if_neg hEc] at hc1 hbe
          omega
    · rw [if_neg hq] at h
      rcases hR : ncl1Go B E as (cur + a.length) with ⟨⟨kr, curr, meetr⟩, outr⟩
      rw [hR] at h
      simp only [Prod.mk.injEq] at h
      obtain ⟨⟨_, hcr, hmr⟩, hor⟩ := h
      subst hcr hmr
      exact ih (cur + a.length) kr curr meetr rows (by omega)
        (by rw [hR, hor])

/-- **C5.** For any configured limit `[B, E)` and any finished `resTbl`
chunk list, the concatenation of the rows emitted by enough successive
limit-aware `getChunk` calls of one consumer (started from `reset`) equals
the full unlimited output sliced `[B, E)` — whether the bounds land inside
a batch or across batch boundaries. Moreover a consumer whose counter has
reached `limitEnd` emits nothing more (its cursor does not move), and the
first-batch scan only ever emits rows out of a batch whose running counter
plus row count strictly exceeds `limitBeg`. -/
theorem cte_limit_slice (B E : Nat) (chunks : List Chunk) (n : Nat)
    (hBE : B ≤ E) (hn : chunks.length + 1 ≤ n) :
    emitCalls B E chunks n consumerReset =
      ((chunks.flatten).drop B).take (E - B) ∧
    (∀ c : Consumer, c.meetFirstBatch = true → E ≤ c.cursor →
      nextChunkLimit B E chunks c = (c, [])) ∧
    (∀ (rest : List Chunk) (cur k cur1 : Nat) (meet1 : Bool)
      (rows : List Row), cur ≤ B →
      ncl1Go B E rest cur = ((k, cur1, meet1), some rows) → B < cur1) := by
  refine ⟨?_, fun c => ncl2_past_end B E chunks c, ncl1Go_emit_gt B E hBE⟩
  have h := emitCalls_spec B E hBE chunks n consumerReset
    (fun _ => Nat.zero_le B) (by simp only [consumerReset]; omega)
  rw [h]
  simp [expectedOut, consumerReset]

/-- C5 at `B = 1`, `E = 4` over two batches of 2 and 3 rows: the bounds cut
inside both batches and the emitted rows are the middle slice. -/
theorem cte_limit_slice_witness :
    emitCalls 1 4 [[[0], [1]], [[2], [3], [4]]] 3 consumerReset =
      ((([[[0], [1]], [[2], [3], [4]]] : List Chunk).flatten).drop 1).take 3 :=
  (cte_limit_slice 1 4 [[[0], [1]], [[2], [3], [4]]] 3 (by decide)
    (by decide)).1
